import Mathlib

/-!
Shallow embedding of the `gh-as-db` record store (TypeScript) in Lean 4,
together with proofs about its query pipeline, secondary index, retry/backoff
wrapper, two-tier cache, transaction buffer and conflict handling.

Conventions of the embedding:
* JavaScript values occurring as record fields, filter arguments and cache
  payloads are modelled by the inductive type `Value` (ints stand in for JS
  numbers; array identity is modelled structurally).
* JavaScript objects held in `Set`s/`Map`s by reference are modelled by
  records carrying a unique numeric `tag` (two distinct objects never share a
  tag, which the reachability relations enforce).
* Asynchronous remote calls are modelled by passing the (net) outcome of each
  remote request as an explicit parameter; every storage operation also
  reports how many remote requests it issued.
* Machine time (`Date.now()`) is an explicit `Nat` parameter.
-/

namespace GhDb

/-- JS values as they appear in the JSON-backed records of this store. -/
inductive Value where
  | vnull : Value
  | vundef : Value
  | vbool : Bool → Value
  | vnum : Int → Value
  | vstr : String → Value
  | varr : List Value → Value

namespace Value

mutual

/-- Structural equality of values; this models JS strict equality / the
`SameValueZero` algorithm of `Map`/`Set`/`includes` (array identity is
modelled structurally, see the header). -/
def beqV : Value → Value → Bool
  | vnull, vnull => true
  | vundef, vundef => true
  | vbool a, vbool b => a == b
  | vnum a, vnum b => a == b
  | vstr a, vstr b => a == b
  | varr a, varr b => beqVList a b
  | _, _ => false

/-- Elementwise `beqV` on lists. -/
def beqVList : List Value → List Value → Bool
  | [], [] => true
  | a :: as, b :: bs => beqV a b && beqVList as bs
  | _, _ => false

end

/-- Structural induction principle for `Value` that handles the nested list. -/
theorem recOn' {P : Value → Prop}
    (hnull : P vnull) (hundef : P vundef) (hbool : ∀ b, P (vbool b))
    (hnum : ∀ n, P (vnum n)) (hstr : ∀ s, P (vstr s))
    (harr : ∀ l, (∀ x ∈ l, P x) → P (varr l)) : ∀ v, P v
  | vnull => hnull
  | vundef => hundef
  | vbool b => hbool b
  | vnum n => hnum n
  | vstr s => hstr s
  | varr l => harr l (fun x hx =>
      recOn' hnull hundef hbool hnum hstr harr x)
termination_by v => sizeOf v
decreasing_by
  have := List.sizeOf_lt_of_mem hx
  simp only [Value.varr.sizeOf_spec]
  omega

theorem beqV_iff : ∀ a b : Value, beqV a b = true ↔ a = b := by
  intro a
  induction a using recOn' with
  | hnull => intro b; cases b <;> simp [beqV]
  | hundef => intro b; cases b <;> simp [beqV]
  | hbool x => intro b; cases b <;> simp [beqV]
  | hnum x => intro b; cases b <;> simp [beqV]
  | hstr x => intro b; cases b <;> simp [beqV]
  | harr l ih =>
    intro b
    cases b with
    | varr m =>
      simp only [beqV, varr.injEq]
      induction l generalizing m with
      | nil => cases m <;> simp [beqVList]
      | cons x xs ihx =>
        cases m with
        | nil => simp [beqVList]
        | cons y ys =>
          simp only [beqVList, Bool.and_eq_true, List.cons.injEq]
          rw [ih x (by simp), ihx (fun z hz => ih z (by simp [hz])) ys]
    | vnull => simp [beqV]
    | vundef => simp [beqV]
    | vbool _ => simp [beqV]
    | vnum _ => simp [beqV]
    | vstr _ => simp [beqV]

instance : DecidableEq Value := fun a b =>
  decidable_of_iff (beqV a b = true) (beqV_iff a b)

mutual

/-- `String(v)` for an array element: JS `Array.prototype.join` maps `null`
and `undefined` to the empty string; other elements go through `String()`. -/
def arrElemStr : Value → String
  | vnull => ""
  | vundef => ""
  | vbool b => if b then "true" else "false"
  | vnum n => toString n
  | vstr s => s
  | varr l => joinElems l

/-- Comma-join of stringified array elements (JS `Array.prototype.join`). -/
def joinElems : List Value → String
  | [] => ""
  | [x] => arrElemStr x
  | x :: y :: xs => arrElemStr x ++ "," ++ joinElems (y :: xs)

end

/-- `ToPrimitive` of a JS array as used in comparisons: its `toString`,
i.e. the comma-join of its elements. -/
def arrStr (l : List Value) : String := joinElems l

/-- After `ToPrimitive`, is this value a string (so that `<`/`>` compare as
strings when both sides are)? Strings and arrays are; everything else
converts to a number. -/
def isStringy : Value → Bool
  | vstr _ => true
  | varr _ => true
  | _ => false

/-- The string a stringy value compares as. -/
def strVal : Value → String
  | vstr s => s
  | varr l => arrStr l
  | _ => ""

/-- Parse a string the way JS `Number(s)` does, restricted to the integer
literals this store produces: optional sign and decimal digits; the empty
(or all-space) string is `0`; anything else is NaN (`none`). -/
def parseNum (s : String) : Option Int :=
  let t := s.trim
  if t = "" then some 0
  else if t.startsWith "-" then
    let d := t.drop 1
    if d ≠ "" ∧ d.all Char.isDigit then some (-(d.toNat!)) else none
  else if t.all Char.isDigit then some (t.toNat!) else none

/-- `ToNumber` of a JS value; `none` is NaN. -/
def toNum : Value → Option Int
  | vnull => some 0
  | vundef => none
  | vbool b => some (if b then 1 else 0)
  | vnum n => some n
  | vstr s => parseNum s
  | varr l => parseNum (arrStr l)

/-- Numeric comparison step of the JS relational comparison; any NaN
(`none`) makes it false. -/
def numLtB : Option Int → Option Int → Bool
  | some x, some y => decide (x < y)
  | _, _ => false

/-- JS abstract relational comparison `a < b`: if both operands convert to
strings, compare as strings; otherwise compare as numbers, any NaN making the
comparison false. -/
def jsLt (a b : Value) : Bool :=
  if a.isStringy ∧ b.isStringy then decide (a.strVal < b.strVal)
  else numLtB a.toNum b.toNum

/-- JS `a > b` is the relational comparison with the operands swapped. -/
def jsGt (a b : Value) : Bool := jsLt b a

/-- Whether the relational comparison of `a` and `b` is defined (does not
involve NaN); JS `>=`/`<=` are false whenever it is not. -/
def cmpDefined (a b : Value) : Bool :=
  (a.isStringy ∧ b.isStringy) ∨ (a.toNum.isSome ∧ b.toNum.isSome)

/-- JS `a >= b`: `¬(a < b)`, false when the comparison is undefined. -/
def jsGe (a b : Value) : Bool := cmpDefined a b ∧ ¬ jsLt a b

/-- JS `a <= b`: `¬(b < a)`, false when the comparison is undefined. -/
def jsLe (a b : Value) : Bool := cmpDefined a b ∧ ¬ jsLt b a

/-- JS `String.prototype.includes`: substring test (the empty pattern is
always contained). -/
def strIncludes (s pat : String) : Bool :=
  if pat = "" then true else (s.splitOn pat).length ≥ 2

/-- `String(v)` at top level (used when a non-string is passed to
`String.prototype.includes`). -/
def jsString : Value → String
  | vnull => "null"
  | vundef => "undefined"
  | v => arrElemStr v

end Value

/-- A record (a JS object parsed from JSON). `tag` models the object's
identity: two objects that are different references carry different tags. -/
structure Rec where
  tag : Nat
  fields : List (String × Value)
deriving DecidableEq

/-- `item[field]`: a missing field reads as JS `undefined`. -/
def Rec.get (r : Rec) (f : String) : Value :=
  match r.fields.lookup f with
  | some v => v
  | none => Value.vundef

/-! ## Query options (src/core/types.ts) -/

/-- The filter operators of `FilterOperator` in `src/core/types.ts`. -/
inductive FilterOperator where
  | eq | neq | gt | gte | lt | lte | contains | inOp
deriving DecidableEq

/-- `FilterPredicate` from `src/core/types.ts` (field, operator, value). -/
structure FilterPredicate where
  field : String
  operator : FilterOperator
  value : Value
deriving DecidableEq

/-- `SortOrder`: ascending or descending. -/
inductive SortOrder where
  | asc | desc
deriving DecidableEq

/-- `SortOptions` from `src/core/types.ts`. -/
structure SortOption where
  field : String
  order : SortOrder
deriving DecidableEq

/-- `PaginationOptions` (both fields optional in TS). -/
structure Pagination where
  limit : Option Nat
  offset : Option Nat
deriving DecidableEq

/-- `QueryOptions` (all three members optional in TS). -/
structure QueryOptions where
  filters : Option (List FilterPredicate)
  sort : Option (List SortOption)
  pagination : Option Pagination
deriving DecidableEq

/-! ## `Collection.applyQueryOptions` (src/ui/collection.ts, lines 225-282) -/

/-- The `switch (filter.operator)` body of `applyQueryOptions`: does `item`
pass `filter`? -/
def matchesFilter (item : Rec) (filter : FilterPredicate) : Bool :=
  let val := item.get filter.field
  match filter.operator with
  | .eq => val == filter.value
  | .neq => val != filter.value
  | .gt => Value.jsGt val filter.value
  | .gte => Value.jsGe val filter.value
  | .lt => Value.jsLt val filter.value
  | .lte => Value.jsLe val filter.value
  | .contains =>
    match val with
    | .varr l => l.contains filter.value
    | .vstr s => Value.strIncludes s (Value.jsString filter.value)
    | _ => false
  | .inOp =>
    match filter.value with
    | .varr l => l.contains val
    | _ => false

/-- The comparator the code passes to `Array.prototype.sort` for one sort
key: `-1` if `a[field] < b[field]`, `1` if `>`, else `0`, with the sign
flipped for descending order. -/
def sortCmp (s : SortOption) (a b : Rec) : Int :=
  if Value.jsLt (a.get s.field) (b.get s.field) then
    (match s.order with | .asc => -1 | .desc => 1)
  else if Value.jsGt (a.get s.field) (b.get s.field) then
    (match s.order with | .asc => 1 | .desc => -1)
  else 0

/-- Stable insertion of `x` into `l`: `x` goes before the first element `y`
with `c x y ≤ 0` (so it lands after every earlier element it ties with).
This is the characterising behaviour of the stable `Array.prototype.sort`. -/
def insertC (c : α → α → Int) (x : α) : List α → List α
  | [] => [x]
  | y :: ys => if c x y ≤ 0 then x :: y :: ys else y :: insertC c x ys

/-- Stable sort by an integer comparator; models one JS
`Array.prototype.sort(cmp)` call (stable since ES2019). -/
def sortC (c : α → α → Int) : List α → List α
  | [] => []
  | x :: xs => insertC c x (sortC c xs)

/-- JS `Array.prototype.slice(start, end?)` for non-negative bounds. -/
def jsSlice (l : List α) (start : Nat) (stop : Option Nat) : List α :=
  match stop with
  | some e => (l.take e).drop start
  | none => l.drop start

/-- The `if (options.filters)` stage of `applyQueryOptions`: apply each
filter in turn, in the order given. -/
def applyFilters (filters : Option (List FilterPredicate)) (l : List Rec) :
    List Rec :=
  match filters with
  | none => l
  | some fs => fs.foldl (fun acc f => acc.filter (fun r => matchesFilter r f)) l

/-- The `if (options.sort)` stage: one full (stable) `Array.prototype.sort`
call per sort key, in the order given. -/
def applySorts (sort : Option (List SortOption)) (l : List Rec) : List Rec :=
  match sort with
  | none => l
  | some ss => ss.foldl (fun acc s => sortC (sortCmp s) acc) l

/-- The `if (options.pagination)` stage:
`result.slice(offset, limit ? offset + limit : undefined)`. -/
def applyPagination (pagination : Option Pagination) (l : List Rec) : List Rec :=
  match pagination with
  | none => l
  | some p =>
    jsSlice l (p.offset.getD 0)
      (match p.limit with
       | some n => if n ≠ 0 then some (p.offset.getD 0 + n) else none
       | none => none)

/-- `Collection.applyQueryOptions`: the three stages in sequence (the code
reassigns one `result` variable through the same three steps). -/
def applyQueryOptions (items : List Rec) (options : QueryOptions) : List Rec :=
  applyPagination options.pagination
    (applySorts options.sort (applyFilters options.filters items))

/-! ## JS `Map` / `Set` helpers

A JS `Map` is modelled as an association list in insertion order: `get`
returns the first (only) entry with the key, `set` updates an existing entry
in place or appends a new one, `delete` removes the entry. A JS `Set` of
records is a list of records in insertion order without duplicate tags. -/

/-- `Map.prototype.get`. -/
def jsMapGet [BEq κ] (m : List (κ × β)) (k : κ) : Option β :=
  match m with
  | [] => none
  | (k', v) :: rest => if k' == k then some v else jsMapGet rest k

/-- `Map.prototype.set`. -/
def jsMapSet [BEq κ] (m : List (κ × β)) (k : κ) (v : β) : List (κ × β) :=
  match m with
  | [] => [(k, v)]
  | (k', v') :: rest =>
    if k' == k then (k', v) :: rest else (k', v') :: jsMapSet rest k v

/-- `Map.prototype.has`. -/
def jsMapHas [BEq κ] (m : List (κ × β)) (k : κ) : Bool :=
  (jsMapGet m k).isSome

/-- `Map.prototype.delete`. -/
def jsMapDelete [BEq κ] (m : List (κ × β)) (k : κ) : List (κ × β) :=
  m.filter (fun e => !(e.1 == k))

theorem jsMapGet_jsMapSet [DecidableEq κ] (m : List (κ × β)) (k k' : κ) (v : β) :
    jsMapGet (jsMapSet m k v) k' = if k' = k then some v else jsMapGet m k' := by
  induction m with
  | nil =>
    simp only [jsMapSet, jsMapGet, beq_iff_eq]
    by_cases h : k' = k
    · simp [h]
    · have h' : ¬ k = k' := fun hh => h hh.symm
      simp [h, h']
  | cons e rest ih =>
    obtain ⟨k₀, v₀⟩ := e
    simp only [jsMapSet, beq_iff_eq]
    by_cases h0 : k₀ = k
    · subst h0
      simp only [if_true, jsMapGet, beq_iff_eq]
      by_cases h : k₀ = k'
      · simp [h]
      · have h' : ¬ k' = k₀ := fun hh => h hh.symm
        simp [h, h']
    · simp only [h0, if_false, jsMapGet, beq_iff_eq, ih]
      by_cases h : k₀ = k'
      · subst h
        simp [h0]
      · simp [h]

theorem jsMapGet_jsMapDelete [DecidableEq κ] (m : List (κ × β)) (k k' : κ) :
    jsMapGet (jsMapDelete m k) k' = if k' = k then none else jsMapGet m k' := by
  induction m with
  | nil => simp [jsMapGet, jsMapDelete]
  | cons e rest ih =>
    obtain ⟨k₀, v₀⟩ := e
    simp only [jsMapDelete, List.filter_cons] at ih ⊢
    by_cases h0 : k₀ = k
    · subst h0
      simp only [beq_self_eq_true, Bool.not_true, if_false, ih]
      by_cases h : k' = k₀
      · subst h; simp [ih]
      · have h' : ¬ k₀ = k' := fun hh => h hh.symm
        simp [h, h', ih, jsMapGet]
    · have hb : (!(k₀ == k)) = true := by simp [h0]
      rw [hb, if_pos rfl]
      by_cases h : k₀ = k'
      · subst h
        simp [jsMapGet, h0, ih]
      · simp only [jsMapGet, beq_iff_eq, h, if_false, ih]

/-! ## The secondary index (src/core/indexer.ts) -/

namespace Indexer

/-- A `Set<T>` bucket of records sharing one field value. -/
abbrev Bucket := List Rec

/-- `Map<any, Set<T>>`: one field's index. -/
abbrev FieldIndex := List (Value × Bucket)

/-- `Map<keyof T, Map<any, Set<T>>>`: all indexes. -/
abbrev Indexes := List (String × FieldIndex)

/-- `Set.prototype.add` on a bucket (identity = tag). -/
def setAdd (b : Bucket) (r : Rec) : Bucket :=
  if b.any (fun x => x.tag == r.tag) then b else b ++ [r]

/-- `Set.prototype.delete` on a bucket (identity = tag). -/
def setDelete (b : Bucket) (r : Rec) : Bucket :=
  b.filter (fun x => x.tag ≠ r.tag)

/-- One iteration of the inner loops of `build`/`add`: ensure the bucket for
`item[f]` exists, then add `item` to it. -/
def addToFieldIndex (fi : FieldIndex) (item : Rec) (f : String) : FieldIndex :=
  match jsMapGet fi (item.get f) with
  | none => jsMapSet fi (item.get f) (setAdd [] item)
  | some b => jsMapSet fi (item.get f) (setAdd b item)

/-- `Indexer.build(items, fields)`: clear, then bucket every item under every
field in turn. -/
def build (items : List Rec) (fields : List String) : Indexes :=
  fields.foldl
    (fun idxs f =>
      jsMapSet idxs f (items.foldl (fun fi item => addToFieldIndex fi item f) []))
    []

/-- `Indexer.query(field, value)`: `null` when the field has no index, else
the bucket's members (`[]` when no bucket). -/
def query (idxs : Indexes) (f : String) (v : Value) : Option (List Rec) :=
  match jsMapGet idxs f with
  | none => none
  | some fi =>
    some (match jsMapGet fi v with
          | some b => b
          | none => [])

/-- `Indexer.add(item)`: add the item to every existing field index. -/
def add (idxs : Indexes) (item : Rec) : Indexes :=
  idxs.map (fun e => (e.1, addToFieldIndex e.2 item e.1))

/-- `Indexer.remove(item)`: delete the item from the bucket at its value
under every existing field index (no-op when the bucket is missing). -/
def remove (idxs : Indexes) (item : Rec) : Indexes :=
  idxs.map (fun e =>
    (e.1,
     match jsMapGet e.2 (item.get e.1) with
     | none => e.2
     | some b => jsMapSet e.2 (item.get e.1) (setDelete b item)))

/-- `Indexer.update(old, new)` is literally `remove(old); add(new)`. -/
def update (idxs : Indexes) (oldItem newItem : Rec) : Indexes :=
  add (remove idxs oldItem) newItem

/-- `Indexer.hasIndex(field)`. -/
def hasIndex (idxs : Indexes) (f : String) : Bool :=
  jsMapHas idxs f

/-- `Indexer.clear()`. -/
def clear : Indexes := []

end Indexer

/-- The index states reachable via `build` then any sequence of
`add`/`remove`/`update`, paired with the record set they are maintained
over. The tag hypotheses say that distinct record objects carry distinct
tags (tags model JS object identity). -/
inductive IdxReach : Indexer.Indexes → List Rec → Prop where
  | build (items : List Rec) (fields : List String)
      (hnodup : (items.map Rec.tag).Nodup) :
      IdxReach (Indexer.build items fields) items
  | add (idxs : Indexer.Indexes) (recs : List Rec) (r : Rec)
      (hr : IdxReach idxs recs) (hfresh : r.tag ∉ recs.map Rec.tag) :
      IdxReach (Indexer.add idxs r) (recs ++ [r])
  | remove (idxs : Indexer.Indexes) (recs : List Rec) (r : Rec)
      (hr : IdxReach idxs recs) (hmem : r ∈ recs ∨ r.tag ∉ recs.map Rec.tag) :
      IdxReach (Indexer.remove idxs r) (recs.filter (fun x => x.tag ≠ r.tag))
  | update (idxs : Indexer.Indexes) (recs : List Rec) (oldItem newItem : Rec)
      (hr : IdxReach idxs recs)
      (hold : oldItem ∈ recs ∨ oldItem.tag ∉ recs.map Rec.tag)
      (hfresh : newItem.tag ∉ ((recs.filter (fun x => x.tag ≠ oldItem.tag)).map Rec.tag)) :
      IdxReach (Indexer.update idxs oldItem newItem)
        ((recs.filter (fun x => x.tag ≠ oldItem.tag)) ++ [newItem])

/-! ### Index/scan equivalence machinery -/

namespace Indexer

/-- The bucket an indexed field holds for a value (empty when absent). -/
def bucketOf (fi : FieldIndex) (v : Value) : Bucket :=
  (jsMapGet fi v).getD []

theorem bucketOf_addToFieldIndex (fi : FieldIndex) (item : Rec) (f : String)
    (v : Value) :
    bucketOf (addToFieldIndex fi item f) v =
      if v = item.get f then setAdd (bucketOf fi v) item else bucketOf fi v := by
  unfold addToFieldIndex bucketOf
  cases hg : jsMapGet fi (item.get f) with
  | none =>
    rw [jsMapGet_jsMapSet]
    by_cases h : v = item.get f
    · subst h; simp [hg]
    · simp [h]
  | some b =>
    rw [jsMapGet_jsMapSet]
    by_cases h : v = item.get f
    · subst h; simp [hg]
    · simp [h]

/-- The per-field coherence invariant: every value's bucket is exactly the
linear-scan filter of the record list on equality at that field. -/
def FInv (f : String) (fi : FieldIndex) (recs : List Rec) : Prop :=
  ∀ v, bucketOf fi v = recs.filter (fun r => r.get f == v)

theorem FInv_addToFieldIndex {f : String} {fi : FieldIndex} {recs : List Rec}
    {item : Rec} (hinv : FInv f fi recs)
    (hfresh : item.tag ∉ recs.map Rec.tag) :
    FInv f (addToFieldIndex fi item f) (recs ++ [item]) := by
  intro v
  rw [bucketOf_addToFieldIndex, List.filter_append]
  by_cases h : v = item.get f
  · subst h
    rw [if_pos rfl, hinv]
    have hnot : ((recs.filter (fun r => r.get f == item.get f)).any
        (fun x => x.tag == item.tag)) = false := by
      rw [List.any_eq_false]
      intro x hx
      have hxr : x ∈ recs := List.mem_of_mem_filter hx
      simp only [beq_iff_eq]
      intro hteq
      exact hfresh (hteq ▸ List.mem_map_of_mem Rec.tag hxr)
    rw [setAdd, hnot, if_neg (by simp)]
    simp
  · rw [if_neg h, hinv]
    have hne : ¬ ((item.get f == v) = true) := by
      simp only [beq_iff_eq]
      exact fun hh => h hh.symm
    have : (List.filter (fun r => r.get f == v) [item]) = [] := by
      simp only [List.filter_cons, List.filter_nil]
      rw [if_neg hne]
    rw [this, List.append_nil]

theorem FInv_buildFold (f : String) :
    ∀ (items pre : List Rec) (fi : FieldIndex), FInv f fi pre →
      (((pre ++ items).map Rec.tag).Nodup) →
      FInv f (items.foldl (fun fi item => addToFieldIndex fi item f) fi)
        (pre ++ items) := by
  intro items
  induction items with
  | nil => intro pre fi hinv _; simpa using hinv
  | cons x xs ih =>
    intro pre fi hinv hnodup
    have hx : x.tag ∉ pre.map Rec.tag := by
      have := hnodup
      rw [List.map_append] at this
      rcases List.nodup_append.mp this with ⟨_, _, hdisj⟩
      intro hmem
      exact hdisj hmem (by simp)
    have hstep := FInv_addToFieldIndex hinv hx
    have hlist : pre ++ x :: xs = (pre ++ [x]) ++ xs := by simp
    rw [List.foldl_cons, hlist]
    exact ih (pre ++ [x]) _ hstep (by rw [← hlist]; exact hnodup)

theorem jsMapGet_map (g : String → FieldIndex → FieldIndex)
    (m : Indexes) (f : String) :
    jsMapGet (m.map (fun e => (e.1, g e.1 e.2))) f =
      (jsMapGet m f).map (fun fi => g f fi) := by
  induction m with
  | nil => simp [jsMapGet]
  | cons e rest ih =>
    obtain ⟨k, fi⟩ := e
    simp only [List.map_cons, jsMapGet, beq_iff_eq]
    by_cases h : k = f
    · subst h; simp
    · simp [h, ih]

theorem jsMapGet_build (items : List Rec) (fields : List String) (f : String) :
    jsMapGet (build items fields) f =
      if f ∈ fields then
        some (items.foldl (fun fi item => addToFieldIndex fi item f) [])
      else none := by
  unfold build
  have main : ∀ (fs : List String) (acc : Indexes),
      jsMapGet
        (fs.foldl (fun idxs g =>
          jsMapSet idxs g (items.foldl (fun fi item => addToFieldIndex fi item g) [])) acc) f =
      if f ∈ fs then
        some (items.foldl (fun fi item => addToFieldIndex fi item f) [])
      else jsMapGet acc f := by
    intro fs
    induction fs with
    | nil => intro acc; simp
    | cons g gs ih =>
      intro acc
      rw [List.foldl_cons, ih]
      by_cases hmem : f ∈ gs
      · simp [hmem]
      · rw [if_neg hmem, jsMapGet_jsMapSet]
        by_cases hg : f = g
        · subst hg; simp
        · have : f ∉ g :: gs := by
            intro hh
            rcases List.mem_cons.mp hh with h1 | h2
            · exact hg h1
            · exact hmem h2
          simp [hg, this]
  rw [main fields []]
  simp [jsMapGet]

/-- The full coherence invariant over all indexed fields. -/
def Inv (idxs : Indexes) (recs : List Rec) : Prop :=
  ∀ f fi, jsMapGet idxs f = some fi → FInv f fi recs

theorem FInv_remove_field {f : String} {fi : FieldIndex} {recs : List Rec}
    {r : Rec} (hinv : FInv f fi recs)
    (hmem : r ∈ recs ∨ r.tag ∉ recs.map Rec.tag)
    (hnodup : (recs.map Rec.tag).Nodup) :
    FInv f
      (match jsMapGet fi (r.get f) with
       | none => fi
       | some b => jsMapSet fi (r.get f) (setDelete b r))
      (recs.filter (fun x => x.tag ≠ r.tag)) := by
  have honly : ∀ x ∈ recs, x.tag = r.tag → x = r := by
    intro x hx hteq
    rcases hmem with hin | hout
    · exact List.inj_on_of_nodup_map hnodup hx hin hteq
    · exact absurd (hteq ▸ List.mem_map_of_mem Rec.tag hx) hout
  -- commuting the two filters
  have hcomm : ∀ (v : Value),
      (recs.filter (fun x => x.tag ≠ r.tag)).filter (fun x => x.get f == v) =
      (recs.filter (fun x => x.get f == v)).filter (fun x => x.tag ≠ r.tag) := by
    intro v
    simp only [List.filter_filter]
    apply List.filter_congr
    intro x _
    exact (Bool.and_comm _ _)
  cases hg : jsMapGet fi (r.get f) with
  | none =>
    -- the bucket at `r[f]` is empty, so no member of `recs` shares `r`'s tag
    have hempty : recs.filter (fun x => x.get f == (r.get f)) = [] := by
      have := hinv (r.get f)
      rw [bucketOf, hg] at this
      exact this.symm
    have hnone : ∀ x ∈ recs, x.tag ≠ r.tag := by
      intro x hx hteq
      have hxr : x = r := honly x hx hteq
      subst hxr
      have : x ∈ recs.filter (fun y => y.get f == (x.get f)) :=
        List.mem_filter.mpr ⟨hx, by simp⟩
      rw [hempty] at this
      exact absurd this (List.not_mem_nil x)
    have hid : recs.filter (fun x => x.tag ≠ r.tag) = recs := by
      apply List.filter_eq_self.mpr
      intro x hx
      simpa using hnone x hx
    intro v
    rw [hid]
    exact hinv v
  | some b =>
    intro v
    rw [bucketOf, jsMapGet_jsMapSet]
    have hb : b = recs.filter (fun x => x.get f == (r.get f)) := by
      have := hinv (r.get f)
      rw [bucketOf, hg] at this
      exact this
    by_cases hv : v = r.get f
    · subst hv
      rw [if_pos rfl, Option.getD_some, setDelete, hb, hcomm]
    · rw [if_neg hv, hcomm]
      have hsub : (recs.filter (fun x => x.get f == v)).filter
          (fun x => x.tag ≠ r.tag) = recs.filter (fun x => x.get f == v) := by
        apply List.filter_eq_self.mpr
        intro x hx
        rcases List.mem_filter.mp hx with ⟨hxr, hxv⟩
        simp only [ne_eq, decide_not, Bool.not_eq_true', decide_eq_false_iff_not]
        intro hteq
        have := honly x hxr hteq
        subst this
        exact hv (Eq.symm (by simpa using hxv))
      rw [hsub]
      exact hinv v

theorem Inv_add {idxs : Indexes} {recs : List Rec} {r : Rec}
    (hinv : Inv idxs recs) (hfresh : r.tag ∉ recs.map Rec.tag) :
    Inv (add idxs r) (recs ++ [r]) := by
  intro f fi' hget
  unfold add at hget
  rw [jsMapGet_map (fun f fi => addToFieldIndex fi r f)] at hget
  cases hg : jsMapGet idxs f with
  | none => rw [hg] at hget; exact absurd hget (by simp)
  | some fi =>
    rw [hg] at hget
    simp only [Option.map_some'] at hget
    obtain rfl : fi' = addToFieldIndex fi r f := by
      injection hget with h; exact h.symm
    exact FInv_addToFieldIndex (hinv f fi hg) hfresh

theorem Inv_remove {idxs : Indexes} {recs : List Rec} {r : Rec}
    (hinv : Inv idxs recs) (hmem : r ∈ recs ∨ r.tag ∉ recs.map Rec.tag)
    (hnodup : (recs.map Rec.tag).Nodup) :
    Inv (remove idxs r) (recs.filter (fun x => x.tag ≠ r.tag)) := by
  intro f fi' hget
  unfold remove at hget
  rw [jsMapGet_map (fun f fi =>
    match jsMapGet fi (r.get f) with
    | none => fi
    | some b => jsMapSet fi (r.get f) (setDelete b r))] at hget
  cases hg : jsMapGet idxs f with
  | none => rw [hg] at hget; exact absurd hget (by simp)
  | some fi =>
    rw [hg] at hget
    simp only [Option.map_some'] at hget
    obtain rfl : fi' = (match jsMapGet fi (r.get f) with
        | none => fi
        | some b => jsMapSet fi (r.get f) (setDelete b r)) := by
      injection hget with h; exact h.symm
    exact FInv_remove_field (hinv f fi hg) hmem hnodup

theorem Inv_build (items : List Rec) (fields : List String)
    (hnodup : (items.map Rec.tag).Nodup) :
    Inv (build items fields) items := by
  intro f fi hget
  rw [jsMapGet_build] at hget
  by_cases hmem : f ∈ fields
  · rw [if_pos hmem] at hget
    obtain rfl : fi = items.foldl (fun fi item => addToFieldIndex fi item f) [] := by
      injection hget with h; exact h.symm
    have := FInv_buildFold f items [] []
      (fun v => by simp [bucketOf, jsMapGet]) (by simpa using hnodup)
    simpa using this
  · rw [if_neg hmem] at hget
    exact absurd hget (by simp)

end Indexer

/-- Every reachable index state satisfies the coherence invariant, and the
accompanying record set never repeats a tag. -/
theorem IdxReach.inv {idxs : Indexer.Indexes} {recs : List Rec}
    (h : IdxReach idxs recs) :
    Indexer.Inv idxs recs ∧ (recs.map Rec.tag).Nodup := by
  induction h with
  | build items fields hnodup => exact ⟨Indexer.Inv_build items fields hnodup, hnodup⟩
  | add idxs recs r hr hfresh ih =>
    refine ⟨Indexer.Inv_add ih.1 hfresh, ?_⟩
    rw [List.map_append]
    refine List.Nodup.append ih.2 (by simp) ?_
    intro a ha hb
    simp only [List.map_cons, List.map_nil, List.mem_singleton] at hb
    subst hb
    exact hfresh ha
  | remove idxs recs r hr hmem ih =>
    refine ⟨Indexer.Inv_remove ih.1 hmem ih.2, ?_⟩
    have hsub : List.Sublist ((recs.filter (fun x => x.tag ≠ r.tag)).map Rec.tag)
        (recs.map Rec.tag) := (List.filter_sublist recs).map Rec.tag
    exact ih.2.sublist hsub
  | update idxs recs oldItem newItem hr hold hfresh ih =>
    have hnodup' : ((recs.filter (fun x => x.tag ≠ oldItem.tag)).map Rec.tag).Nodup :=
      ih.2.sublist ((List.filter_sublist recs).map Rec.tag)
    have hmid := Indexer.Inv_remove ih.1 hold ih.2
    refine ⟨Indexer.Inv_add hmid hfresh, ?_⟩
    rw [List.map_append]
    refine List.Nodup.append hnodup' (by simp) ?_
    intro a ha hb
    simp only [List.map_cons, List.map_nil, List.mem_singleton] at hb
    subst hb
    exact hfresh ha

/-- C7: for every field and value and for every index state reachable from
`build` via any sequence of `add`/`remove`/`update`, `query(field, value)`
returns `null` exactly when the field has no index, and otherwise returns
exactly the records of the current record set whose value under that field
equals the queried value (the result of a full linear equality scan, `[]`
when nothing matches); and `update(old, new)` is exactly `remove(old)`
followed by `add(new)`. -/
theorem claimC7_index_scan_equivalence {idxs : Indexer.Indexes} {recs : List Rec}
    (h : IdxReach idxs recs) :
    (∀ f v, Indexer.query idxs f v = none ↔ Indexer.hasIndex idxs f = false) ∧
    (∀ f v l, Indexer.query idxs f v = some l →
      l = recs.filter (fun r => r.get f == v)) ∧
    (∀ a b, Indexer.update idxs a b = Indexer.add (Indexer.remove idxs a) b) := by
  refine ⟨?_, ?_, fun a b => rfl⟩
  · intro f v
    unfold Indexer.query Indexer.hasIndex jsMapHas
    cases jsMapGet idxs f <;> simp
  · intro f v l hq
    unfold Indexer.query at hq
    split at hq
    · exact absurd hq (by simp)
    · rename_i fi hg
      injection hq with hq'
      have hfi := h.inv.1 f fi hg v
      rw [Indexer.bucketOf] at hfi
      rw [← hq']
      cases hgv : jsMapGet fi v with
      | none =>
        rw [hgv] at hfi
        simp only [Option.getD_none] at hfi
        simp only [hgv]
        exact hfi
      | some b =>
        rw [hgv] at hfi
        simp only [Option.getD_some] at hfi
        simp only [hgv]
        exact hfi

/-- First sample record for the C7 witness. -/
def w7r1 : Rec := ⟨1, [("id", .vstr "1"), ("name", .vstr "Alice")]⟩

/-- Second sample record for the C7 witness. -/
def w7r2 : Rec := ⟨2, [("id", .vstr "2"), ("name", .vstr "Alice")]⟩

/-- A concrete reachable index state for the C7 witness: build over `w7r1`,
add `w7r2`, remove `w7r1`. -/
def w7idx : Indexer.Indexes :=
  Indexer.remove (Indexer.add (Indexer.build [w7r1] ["id", "name"]) w7r2) w7r1

/-- The record set accompanying `w7idx`. -/
def w7recs : List Rec :=
  ([w7r1] ++ [w7r2]).filter (fun x => x.tag ≠ w7r1.tag)

/-- Witness for C7 at a concrete reachable index state: the query returns
exactly the linear-scan filter of the surviving record set. -/
theorem claimC7_index_scan_equivalence_witness :
    Indexer.query w7idx "name" (.vstr "Alice") =
      some (w7recs.filter (fun r => r.get "name" == .vstr "Alice")) := by
  have hreach : IdxReach w7idx w7recs :=
    IdxReach.remove _ _ _
      (IdxReach.add _ _ _ (IdxReach.build _ _ (by decide)) (by decide))
      (Or.inl (by decide))
  have h := claimC7_index_scan_equivalence hreach
  have hq : Indexer.query w7idx "name" (.vstr "Alice") = some [w7r2] := by decide
  rw [hq, h.2.1 "name" (.vstr "Alice") _ hq]

/-! ## Stable-sort composition theory

`Array.prototype.sort` with an integer comparator is stable; running it once
per sort key, as `applyQueryOptions` does, therefore equals one stable sort
by the lexicographic comparator over the *reversed* key list. This section
proves that, for comparators that are sign-antisymmetric and transitive on
the records involved. -/

section SortTheory

variable {α : Type}

/-- Lexicographic combination: `c₁` decides unless it ties, then `c₂`. -/
def lexC (c₁ c₂ : α → α → Int) (a b : α) : Int :=
  if c₁ a b ≠ 0 then c₁ a b else c₂ a b

/-- Sign antisymmetry of a comparator (JS comparator contract). -/
def SwapInv (c : α → α → Int) : Prop := ∀ a b, c b a = -(c a b)

/-- Transitivity of `c · · ≤ 0` on the members of `l`. -/
def LeTransOn (c : α → α → Int) (l : List α) : Prop :=
  ∀ a ∈ l, ∀ b ∈ l, ∀ d ∈ l, c a b ≤ 0 → c b d ≤ 0 → c a d ≤ 0

theorem LeTransOn.mono {c : α → α → Int} {l l' : List α}
    (hsub : ∀ a, a ∈ l' → a ∈ l) (h : LeTransOn c l) : LeTransOn c l' :=
  fun a ha b hb d hd => h a (hsub a ha) b (hsub b hb) d (hsub d hd)

instance (c : α → α → Int) (l : List α) : Decidable (LeTransOn c l) := by
  unfold LeTransOn
  infer_instance

theorem lexC_le_iff (c₁ c₂ : α → α → Int) (a b : α) :
    lexC c₁ c₂ a b ≤ 0 ↔ (c₁ a b < 0 ∨ (c₁ a b = 0 ∧ c₂ a b ≤ 0)) := by
  unfold lexC
  by_cases h : c₁ a b = 0 <;> simp [h] <;> omega

theorem perm_insertC (c : α → α → Int) (x : α) :
    ∀ t : List α, List.Perm (insertC c x t) (x :: t)
  | [] => List.Perm.refl _
  | y :: ys => by
    unfold insertC
    by_cases h : c x y ≤ 0
    · rw [if_pos h]
    · rw [if_neg h]
      exact ((perm_insertC c x ys).cons y).trans (List.Perm.swap x y ys)

theorem perm_sortC (c : α → α → Int) :
    ∀ l : List α, List.Perm (sortC c l) l
  | [] => List.Perm.refl _
  | x :: xs =>
    (perm_insertC c x (sortC c xs)).trans ((perm_sortC c xs).cons x)

theorem mem_sortC {c : α → α → Int} {l : List α} {z : α} :
    z ∈ sortC c l ↔ z ∈ l := (perm_sortC c l).mem_iff

theorem pairwise_insertC {c : α → α → Int} (hswap : SwapInv c) :
    ∀ {t : List α} {x : α}, LeTransOn c (x :: t) →
      List.Pairwise (fun a b => c a b ≤ 0) t →
      List.Pairwise (fun a b => c a b ≤ 0) (insertC c x t)
  | [], x, _, _ => by simp [insertC]
  | y :: ys, x, hlt, hp => by
    unfold insertC
    by_cases h : c x y ≤ 0
    · rw [if_pos h]
      refine List.Pairwise.cons ?_ hp
      intro z hz
      rcases List.mem_cons.mp hz with rfl | hzys
      · exact h
      · have hyz := (List.pairwise_cons.mp hp).1 z hzys
        exact hlt x (by simp) y (by simp) z (by simp [hzys]) h hyz
    · rw [if_neg h]
      have hyx : c y x ≤ 0 := by
        have := hswap x y
        omega
      refine List.Pairwise.cons ?_ ?_
      · intro z hz
        rcases List.mem_cons.mp ((perm_insertC c x ys).mem_iff.mp hz) with rfl | h2
        · exact hyx
        · exact (List.pairwise_cons.mp hp).1 z h2
      · refine pairwise_insertC hswap
          (hlt.mono (fun a ha => ?_)) (List.pairwise_cons.mp hp).2
        rcases List.mem_cons.mp ha with rfl | ha'
        · simp
        · simp [ha']

theorem pairwise_sortC {c : α → α → Int} (hswap : SwapInv c) :
    ∀ {l : List α}, LeTransOn c l →
      List.Pairwise (fun a b => c a b ≤ 0) (sortC c l)
  | [], _ => by simp [sortC]
  | x :: xs, hlt => by
    unfold sortC
    refine pairwise_insertC hswap ?_ (pairwise_sortC hswap ?_)
    · refine hlt.mono (fun a ha => ?_)
      rcases List.mem_cons.mp ha with rfl | ha'
      · simp
      · simp [mem_sortC.mp ha']
    · exact hlt.mono (fun a ha => by simp [ha])

theorem insertC_congr {c c' : α → α → Int} {x : α} :
    ∀ {t : List α}, (∀ z ∈ t, (c x z ≤ 0 ↔ c' x z ≤ 0)) →
      insertC c x t = insertC c' x t
  | [], _ => rfl
  | y :: ys, h => by
    unfold insertC
    by_cases hy : c x y ≤ 0
    · rw [if_pos hy, if_pos ((h y (by simp)).mp hy)]
    · rw [if_neg hy, if_neg (fun hc => hy ((h y (by simp)).mpr hc)),
        insertC_congr (fun z hz => h z (by simp [hz]))]

theorem insertC_nil (c : α → α → Int) (x : α) : insertC c x [] = [x] := rfl

theorem insertC_cons (c : α → α → Int) (x y : α) (ys : List α) :
    insertC c x (y :: ys) =
      if c x y ≤ 0 then x :: y :: ys else y :: insertC c x ys := rfl

theorem sortC_nil (c : α → α → Int) : sortC c ([] : List α) = [] := rfl

theorem sortC_cons (c : α → α → Int) (x : α) (xs : List α) :
    sortC c (x :: xs) = insertC c x (sortC c xs) := rfl

theorem insertC_comm {c₁ c₂ : α → α → Int} (hswap₂ : SwapInv c₂)
    {x y : α} (hxy : 0 < c₁ x y) :
    ∀ (s : List α), LeTransOn c₂ (x :: y :: s) →
      insertC c₂ y (insertC (lexC c₂ c₁) x s) =
      insertC (lexC c₂ c₁) x (insertC c₂ y s)
  | [], _ => by
    have hA := hswap₂ x y
    have hlexy : lexC c₂ c₁ x y ≤ 0 ↔ c₂ x y < 0 := by
      rw [lexC_le_iff]; omega
    rw [insertC_nil, insertC_nil, insertC_cons, insertC_cons]
    by_cases h : c₂ y x ≤ 0
    · rw [if_pos h, if_neg (by rw [hlexy]; omega), insertC_nil]
    · rw [if_neg h, if_pos (by rw [hlexy]; omega), insertC_nil]
  | z :: s', hlt => by
    have hA := hswap₂ x y
    have hB := hswap₂ y z
    have hC := hswap₂ x z
    have hx' : x ∈ x :: y :: z :: s' := by simp
    have hy' : y ∈ x :: y :: z :: s' := by simp
    have hz' : z ∈ x :: y :: z :: s' := by simp
    have t₁ := hlt x hx' y hy' z hz'
    have t₂ := hlt y hy' z hz' x hx'
    have t₃ := hlt z hz' x hx' y hy'
    have t₄ := hlt y hy' x hx' z hz'
    have hlt' : LeTransOn c₂ (x :: y :: s') := hlt.mono (fun a ha => by
      rcases List.mem_cons.mp ha with rfl | ha'
      · simp
      · rcases List.mem_cons.mp ha' with rfl | ha''
        · simp
        · simp [ha''])
    have hlexy : lexC c₂ c₁ x y ≤ 0 ↔ c₂ x y < 0 := by
      rw [lexC_le_iff]; omega
    have hlexz : lexC c₂ c₁ x z ≤ 0 ↔
        (c₂ x z < 0 ∨ (c₂ x z = 0 ∧ c₁ x z ≤ 0)) := lexC_le_iff c₂ c₁ x z
    rw [insertC_cons (lexC c₂ c₁) x z s', insertC_cons c₂ y z s']
    by_cases hP : lexC c₂ c₁ x z ≤ 0
    · by_cases hQ : c₂ y z ≤ 0
      · -- both stop at z
        rw [if_pos hP, if_pos hQ, insertC_cons c₂ y x (z :: s'),
          insertC_cons (lexC c₂ c₁) x y (z :: s')]
        by_cases hyx : c₂ y x ≤ 0
        · rw [if_pos hyx, if_neg (show ¬ lexC c₂ c₁ x y ≤ 0 by rw [hlexy]; omega),
            insertC_cons (lexC c₂ c₁) x z s', if_pos hP]
        · rw [if_neg hyx, if_pos (show lexC c₂ c₁ x y ≤ 0 by rw [hlexy]; omega),
            insertC_cons c₂ y z s', if_pos hQ]
      · -- x stops at z, y passes z
        rw [if_pos hP, if_neg hQ]
        have hCle : c₂ x z ≤ 0 := by
          rcases hlexz.mp hP with h | h <;> omega
        have hAlt : c₂ x y < 0 := by
          by_contra hc
          exact hQ (t₄ (by omega) hCle)
        rw [insertC_cons c₂ y x (z :: s'),
          if_neg (show ¬ c₂ y x ≤ 0 by omega),
          insertC_cons c₂ y z s', if_neg hQ,
          insertC_cons (lexC c₂ c₁) x z (insertC c₂ y s'), if_pos hP]
    · by_cases hQ : c₂ y z ≤ 0
      · -- x passes z, y stops at z
        rw [if_neg hP, if_pos hQ]
        have hnA : ¬ c₂ x y < 0 := by
          intro hAlt
          have hCle : c₂ x z ≤ 0 := t₁ (by omega) hQ
          have hCz : c₂ x z = 0 ∧ 0 < c₁ x z := by
            rw [hlexz] at hP
            push_neg at hP
            exact ⟨by omega, by have := hP.2; omega⟩
          have hBge : c₂ z y ≤ 0 := t₃ (by omega) (by omega)
          have : c₂ y x ≤ 0 := t₂ (by omega) (by omega)
          omega
        rw [insertC_cons c₂ y z (insertC (lexC c₂ c₁) x s'), if_pos hQ,
          insertC_cons (lexC c₂ c₁) x y (z :: s'),
          if_neg (show ¬ lexC c₂ c₁ x y ≤ 0 by rw [hlexy]; omega),
          insertC_cons (lexC c₂ c₁) x z s', if_neg hP]
      · -- both pass z: recurse
        rw [if_neg hP, if_neg hQ,
          insertC_cons c₂ y z (insertC (lexC c₂ c₁) x s'), if_neg hQ,
          insertC_cons (lexC c₂ c₁) x z (insertC c₂ y s'), if_neg hP,
          insertC_comm hswap₂ hxy s' hlt']

theorem sortC_insertC {c₁ c₂ : α → α → Int} (hswap₁ : SwapInv c₁)
    (hswap₂ : SwapInv c₂) :
    ∀ (m : List α) (x : α), List.Pairwise (fun a b => c₁ a b ≤ 0) m →
      LeTransOn c₁ (x :: m) → LeTransOn c₂ (x :: m) →
      sortC c₂ (insertC c₁ x m) = insertC (lexC c₂ c₁) x (sortC c₂ m)
  | [], x, _, _, _ => by
    rw [insertC_nil, sortC_nil, sortC_cons, sortC_nil, insertC_nil, insertC_nil]
  | y :: ys, x, hp, hlt₁, hlt₂ => by
    rw [insertC_cons]
    by_cases h : c₁ x y ≤ 0
    · rw [if_pos h, sortC_cons, sortC_cons]
      apply insertC_congr
      intro z hz
      have hz' : z ∈ y :: ys := mem_sortC.mp hz
      have h1z : c₁ x z ≤ 0 := by
        rcases List.mem_cons.mp hz' with rfl | hzys
        · exact h
        · exact hlt₁ x (by simp) y (by simp) z (by simp [hzys]) h
            ((List.pairwise_cons.mp hp).1 z hzys)
      rw [lexC_le_iff]
      omega
    · rw [if_neg h]
      have hxy : 0 < c₁ x y := by omega
      have hsubxys : ∀ a, a ∈ x :: ys → a ∈ x :: y :: ys := fun a ha => by
        rcases List.mem_cons.mp ha with rfl | ha'
        · simp
        · simp [ha']
      rw [sortC_cons, sortC_cons,
        sortC_insertC hswap₁ hswap₂ ys x (List.pairwise_cons.mp hp).2
          (hlt₁.mono hsubxys) (hlt₂.mono hsubxys)]
      apply insertC_comm hswap₂ hxy
      exact hlt₂.mono (fun a ha => by
        rcases List.mem_cons.mp ha with rfl | ha'
        · simp
        · rcases List.mem_cons.mp ha' with rfl | ha''
          · simp
          · simp [mem_sortC.mp ha''])

theorem sortC_sortC {c₁ c₂ : α → α → Int} (hswap₁ : SwapInv c₁)
    (hswap₂ : SwapInv c₂) :
    ∀ (l : List α), LeTransOn c₁ l → LeTransOn c₂ l →
      sortC c₂ (sortC c₁ l) = sortC (lexC c₂ c₁) l
  | [], _, _ => rfl
  | x :: xs, hlt₁, hlt₂ => by
    have hmem : ∀ a, a ∈ x :: sortC c₁ xs → a ∈ x :: xs := fun a ha => by
      rcases List.mem_cons.mp ha with rfl | h'
      · simp
      · simp [mem_sortC.mp h']
    have hsub : ∀ a, a ∈ xs → a ∈ x :: xs := fun a ha => by simp [ha]
    rw [sortC_cons, sortC_cons,
      sortC_insertC hswap₁ hswap₂ (sortC c₁ xs) x
        (pairwise_sortC hswap₁ (hlt₁.mono hsub))
        (hlt₁.mono hmem) (hlt₂.mono hmem),
      sortC_sortC hswap₁ hswap₂ xs (hlt₁.mono hsub) (hlt₂.mono hsub)]

/-- Lexicographic fold of a list of comparators (first = most significant). -/
def lexFold : List (α → α → Int) → (α → α → Int)
  | [] => fun _ _ => 0
  | c :: cs => lexC c (lexFold cs)

theorem swap_lexC {c₁ c₂ : α → α → Int} (h₁ : SwapInv c₁) (h₂ : SwapInv c₂) :
    SwapInv (lexC c₁ c₂) := by
  intro a b
  show (if c₁ b a ≠ 0 then c₁ b a else c₂ b a) =
    -(if c₁ a b ≠ 0 then c₁ a b else c₂ a b)
  rw [h₁ a b, h₂ a b]
  by_cases h : c₁ a b = 0
  · simp [h]
  · rw [if_pos (by omega), if_pos (by omega)]

theorem leTrans_lexC {c₁ c₂ : α → α → Int} {l : List α}
    (h₁swap : SwapInv c₁) (h₁ : LeTransOn c₁ l) (h₂ : LeTransOn c₂ l) :
    LeTransOn (lexC c₁ c₂) l := by
  intro a ha b hb d hd hab hbd
  rw [lexC_le_iff] at hab hbd ⊢
  have s₁ := h₁swap a b
  have s₂ := h₁swap b d
  have s₃ := h₁swap a d
  have u₁ := h₁ a ha b hb d hd
  have u₂ := h₁ d hd a ha b hb
  have u₃ := h₁ b hb d hd a ha
  have u₄ := h₁ d hd b hb a ha
  have u₅ := h₁ b hb a ha d hd
  rcases hab with hab | ⟨hab0, hab2⟩
  · -- a strictly below b under c₁
    left
    have hbdle : c₁ b d ≤ 0 := by rcases hbd with h | h <;> omega
    have hadle : c₁ a d ≤ 0 := u₁ (by omega) hbdle
    by_contra hc
    have had0 : c₁ a d = 0 := by omega
    have : c₁ d b ≤ 0 := u₂ (by omega) (by omega)
    have : c₁ b a ≤ 0 := u₃ hbdle (by omega)
    omega
  · rcases hbd with hbd | ⟨hbd0, hbd2⟩
    · -- tie then strict
      left
      have hadle : c₁ a d ≤ 0 := u₁ (by omega) (by omega)
      by_contra hc
      have had0 : c₁ a d = 0 := by omega
      have : c₁ d b ≤ 0 := u₂ (by omega) (by omega)
      omega
    · -- both ties under c₁
      right
      have hadle : c₁ a d ≤ 0 := u₁ (by omega) (by omega)
      have hdale : c₁ d a ≤ 0 := u₄ (by omega) (by omega)
      exact ⟨by omega, h₂ a ha b hb d hd hab2 hbd2⟩

theorem swap_lexFold : ∀ {cs : List (α → α → Int)},
    (∀ c ∈ cs, SwapInv c) → SwapInv (lexFold cs)
  | [], _ => fun a b => by simp [lexFold]
  | c :: cs, h =>
    swap_lexC (h c (by simp))
      (swap_lexFold (fun c' hc' => h c' (by simp [hc'])))

theorem leTrans_lexFold {l : List α} : ∀ {cs : List (α → α → Int)},
    (∀ c ∈ cs, SwapInv c) → (∀ c ∈ cs, LeTransOn c l) →
    LeTransOn (lexFold cs) l
  | [], _, _ => fun a _ b _ d _ _ _ => by simp [lexFold]
  | c :: cs, hs, ht =>
    leTrans_lexC (hs c (by simp)) (ht c (by simp))
      (leTrans_lexFold (fun c' hc' => hs c' (by simp [hc']))
        (fun c' hc' => ht c' (by simp [hc'])))

theorem sortC_zero : ∀ (l : List α), sortC (fun _ _ => (0 : Int)) l = l
  | [] => rfl
  | x :: xs => by
    rw [sortC_cons, sortC_zero xs]
    cases xs with
    | nil => rfl
    | cons y ys => rw [insertC_cons, if_pos (by omega)]

/-- Running one stable sort per comparator, left to right, equals a single
stable sort by the lexicographic fold of the *reversed* comparator list. -/
theorem foldl_sortC_eq_sortC_lexFold (cs : List (α → α → Int)) (l : List α)
    (hs : ∀ c ∈ cs, SwapInv c) (ht : ∀ c ∈ cs, LeTransOn c l) :
    cs.foldl (fun acc c => sortC c acc) l = sortC (lexFold cs.reverse) l := by
  induction cs using List.reverseRecOn with
  | nil => simp [lexFold, sortC_zero]
  | append_singleton cs c ih =>
    have hsc : ∀ c' ∈ cs, SwapInv c' := fun c' hc' => hs c' (by simp [hc'])
    have htc : ∀ c' ∈ cs, LeTransOn c' l := fun c' hc' => ht c' (by simp [hc'])
    rw [List.foldl_append, List.foldl_cons, List.foldl_nil, ih hsc htc]
    have hs' : ∀ c' ∈ cs.reverse, SwapInv c' := fun c' hc' =>
      hsc c' (List.mem_reverse.mp hc')
    have ht' : ∀ c' ∈ cs.reverse, LeTransOn c' l := fun c' hc' =>
      htc c' (List.mem_reverse.mp hc')
    rw [sortC_sortC (swap_lexFold hs') (hs c (by simp)) l
        (leTrans_lexFold hs' ht') (ht c (by simp))]
    have hrev : (cs ++ [c]).reverse = c :: cs.reverse := by simp
    rw [hrev]
    rfl

end SortTheory

/-! ## `Collection.find` on loaded data (src/ui/collection.ts, lines 135-223) -/

/-- The index fast-path test of `find`: exactly one filter, operator `eq`,
field indexed (the code's `queryOrPredicate?.filters &&
filters.length === 1 && filters[0].operator === "eq" && hasIndex(field)`). -/
def isFastPath (idxs : Indexer.Indexes) (options : QueryOptions) : Bool :=
  match options.filters with
  | some [f] => f.operator == .eq && Indexer.hasIndex idxs f.field
  | _ => false

/-- `Collection.find` with `dataLoaded = true`, restricted to the
query-options overload (the predicate-function overload is a plain
`items.filter` and is not at issue in the claims). `existsOk` is the result
of the initial `storage.exists(this.path)` probe; when it is `false` the
method returns `[]` before looking at the query. -/
def findLoaded (existsOk : Bool) (items : List Rec) (idxs : Indexer.Indexes)
    (q : Option QueryOptions) : List Rec :=
  if existsOk = false then []
  else
    match q with
    | none => items
    | some options =>
      match options.filters with
      | some [f] =>
        if f.operator == FilterOperator.eq && Indexer.hasIndex idxs f.field then
          match Indexer.query idxs f.field f.value with
          | some results => results
          | none => applyQueryOptions items options
        else applyQueryOptions items options
      | _ => applyQueryOptions items options

/-! ### Comparator laws for the sort comparators -/

theorem numLtB_asymm (x y : Option Int) (h : Value.numLtB x y = true) :
    Value.numLtB y x = false := by
  cases x with
  | none => simp [Value.numLtB] at h
  | some a =>
    cases y with
    | none => simp [Value.numLtB] at h
    | some b =>
      simp only [Value.numLtB, decide_eq_true_eq] at h
      simp only [Value.numLtB, decide_eq_false_iff_not]
      omega

theorem jsLt_asymm (a b : Value) (h : Value.jsLt a b = true) :
    Value.jsLt b a = false := by
  unfold Value.jsLt at h ⊢
  by_cases hs : a.isStringy = true ∧ b.isStringy = true
  · rw [if_pos hs] at h
    rw [if_pos ⟨hs.2, hs.1⟩]
    simp only [decide_eq_true_eq] at h
    simp only [decide_eq_false_iff_not]
    exact lt_asymm h
  · have hs' : ¬ (b.isStringy = true ∧ a.isStringy = true) := fun hc =>
      hs ⟨hc.2, hc.1⟩
    rw [if_neg hs] at h
    rw [if_neg hs']
    exact numLtB_asymm _ _ h

/-- The comparator handed to `Array.prototype.sort` is sign-antisymmetric
(for every pair of records, whatever their field values). -/
theorem sortCmp_swap (s : SortOption) : SwapInv (sortCmp s) := by
  intro a b
  unfold sortCmp Value.jsGt
  by_cases h1 : Value.jsLt (a.get s.field) (b.get s.field) = true
  · have h2 := jsLt_asymm _ _ h1
    rw [if_neg (by simp [h2]), if_pos h1, if_pos h1]
    cases s.order <;> rfl
  · by_cases h2 : Value.jsLt (b.get s.field) (a.get s.field) = true
    · rw [if_pos h2, if_neg (by simp [h1]), if_pos h2]
      cases s.order <;> rfl
    · simp only [if_neg h1, if_neg h2]
      simp

/-! ### The spec-side query pipelines for C2 -/

/-- The filter stage shared by both spec-side pipelines: every filter with
logical AND. -/
def specFiltered (options : QueryOptions) (items : List Rec) : List Rec :=
  items.filter (fun r => (options.filters.getD []).all (fun f => matchesFilter r f))

/-- One stable multi-key sort with the **first** sort key most significant
(the spec's claimed tie-breaking order). -/
def specSorted (options : QueryOptions) (items : List Rec) : List Rec :=
  sortC (lexFold ((options.sort.getD []).map sortCmp)) (specFiltered options items)

/-- Modelled from the spec's words for C2 (the claimed semantics, used to
compare against the code): apply every filter with logical AND, then one
stable multi-key sort in which the first sort key is the primary key and
ties are broken by the subsequent keys in the order given, then pagination
as offset followed by limit. -/
def specApplyQuery (options : QueryOptions) (items : List Rec) : List Rec :=
  match options.pagination with
  | none => specSorted options items
  | some p =>
    match p.limit with
    | some n => ((specSorted options items).drop (p.offset.getD 0)).take n
    | none => (specSorted options items).drop (p.offset.getD 0)

/-- One stable sort by the lexicographic comparator over the **reversed**
sort-key list — what running one stable sort per key in the order given
actually produces (the last key ends up most significant). -/
def amendedSorted (options : QueryOptions) (items : List Rec) : List Rec :=
  sortC (lexFold ((options.sort.getD []).reverse.map sortCmp))
    (specFiltered options items)

/-- The amended pipeline the code actually implements on the scan path:
filters AND-ed in order, the reversed-key lexicographic stable sort, then
`drop offset` followed by `take limit` where a missing or zero `limit`
means no limit. -/
def amendedApplyQuery (options : QueryOptions) (items : List Rec) : List Rec :=
  match options.pagination with
  | none => amendedSorted options items
  | some p =>
    match p.limit with
    | some n =>
      if n ≠ 0 then ((amendedSorted options items).drop (p.offset.getD 0)).take n
      else (amendedSorted options items).drop (p.offset.getD 0)
    | none => (amendedSorted options items).drop (p.offset.getD 0)

/-! ### C2: the query pipeline, settled -/

theorem foldl_filter_all (fs : List FilterPredicate) :
    ∀ (l : List Rec),
      fs.foldl (fun acc f => acc.filter (fun r => matchesFilter r f)) l =
      l.filter (fun r => fs.all (fun f => matchesFilter r f)) := by
  induction fs with
  | nil => intro l; simp
  | cons f fs ih =>
    intro l
    rw [List.foldl_cons, ih, List.filter_filter]
    apply List.filter_congr
    intro x _
    simp [List.all_cons, Bool.and_comm]

theorem applyFilters_eq_filter_all (filters : Option (List FilterPredicate))
    (l : List Rec) :
    applyFilters filters l =
      l.filter (fun r => (filters.getD []).all (fun f => matchesFilter r f)) := by
  cases filters with
  | none => simp [applyFilters]
  | some fs => exact foldl_filter_all fs l

theorem applySorts_eq (sort : Option (List SortOption)) (l : List Rec)
    (hlt : ∀ s ∈ sort.getD [], LeTransOn (sortCmp s) l) :
    applySorts sort l =
      sortC (lexFold ((sort.getD []).reverse.map sortCmp)) l := by
  cases sort with
  | none => simp [applySorts, lexFold, sortC_zero]
  | some ss =>
    simp only [Option.getD_some] at hlt ⊢
    show ss.foldl (fun acc s => sortC (sortCmp s) acc) l = _
    rw [← List.foldl_map (f := sortCmp) (g := fun acc c => sortC c acc),
      foldl_sortC_eq_sortC_lexFold (ss.map sortCmp) l
        (fun c hc => by
          rcases List.mem_map.mp hc with ⟨s, _, rfl⟩
          exact sortCmp_swap s)
        (fun c hc => by
          rcases List.mem_map.mp hc with ⟨s, hs, rfl⟩
          exact hlt s hs),
      ← List.map_reverse]

theorem findLoaded_scan (items : List Rec) (idxs : Indexer.Indexes)
    (options : QueryOptions) (hfast : isFastPath idxs options = false) :
    findLoaded true items idxs (some options) = applyQueryOptions items options := by
  unfold isFastPath at hfast
  unfold findLoaded
  rw [if_neg (by simp)]
  cases hf : options.filters with
  | none => simp [hf]
  | some fs =>
    cases fs with
    | nil => simp [hf]
    | cons f rest =>
      cases rest with
      | nil =>
        rw [hf] at hfast
        simp only [hf]
        rw [if_neg (by simp_all)]
      | cons g rest' => simp [hf]

/-- C2 (amended): in the loaded state, when the collection blob exists and
the query is *not* exactly one equality filter on an indexed field (the
index fast path), `find` applies every filter with logical AND in the order
given, then one stable sort by the lexicographic comparator over the
*reversed* sort-key list (each key is a separate stable sort run in the
order given, so the last key is the most significant and fully tied records
keep their input order), then `drop offset` followed by `take limit`, a
missing or zero limit meaning no limit. The sort keys are assumed
le-transitive on the loaded records (true e.g. whenever a key's values are
all numbers or all strings). -/
theorem claimC2_amended_scan_pipeline (existsOk : Bool) (items : List Rec)
    (idxs : Indexer.Indexes) (options : QueryOptions)
    (hex : existsOk = true)
    (hfast : isFastPath idxs options = false)
    (hlt : ∀ s ∈ options.sort.getD [], LeTransOn (sortCmp s) items) :
    findLoaded existsOk items idxs (some options) =
      amendedApplyQuery options items := by
  subst hex
  rw [findLoaded_scan items idxs options hfast]
  unfold applyQueryOptions amendedApplyQuery
  rw [applyFilters_eq_filter_all]
  rw [applySorts_eq options.sort _ (fun s hs =>
    (hlt s hs).mono (fun a ha => List.mem_of_mem_filter ha))]
  have hsorted : sortC (lexFold ((options.sort.getD []).reverse.map sortCmp))
      (items.filter (fun r => (options.filters.getD []).all
        (fun f => matchesFilter r f))) = amendedSorted options items := rfl
  rw [hsorted]
  cases hp : options.pagination with
  | none => rfl
  | some p =>
    simp only [applyPagination]
    cases hl : p.limit with
    | none => rfl
    | some n =>
      show jsSlice (amendedSorted options items) (p.offset.getD 0)
          (if n ≠ 0 then some (p.offset.getD 0 + n) else none) =
        if n ≠ 0 then
          ((amendedSorted options items).drop (p.offset.getD 0)).take n
        else (amendedSorted options items).drop (p.offset.getD 0)
      by_cases hn : n = 0
      · subst hn
        rw [if_neg (by simp), if_neg (by simp)]
        rfl
      · rw [if_pos hn, if_pos hn]
        show ((amendedSorted options items).take (p.offset.getD 0 + n)).drop
          (p.offset.getD 0) = _
        rw [List.drop_take]
        have harith : p.offset.getD 0 + n - p.offset.getD 0 = n := by omega
        rw [harith]

/-- First sample record for C2 (`a = 1`, `b = 2`). -/
def c2r1 : Rec := ⟨1, [("a", .vnum 1), ("b", .vnum 2)]⟩

/-- Second sample record for C2 (`a = 2`, `b = 1`). -/
def c2r2 : Rec := ⟨2, [("a", .vnum 2), ("b", .vnum 1)]⟩

/-- A two-key sort query: by `a` ascending, then by `b` ascending. -/
def c2q : QueryOptions := ⟨none, some [⟨"a", .asc⟩, ⟨"b", .asc⟩], none⟩

/-- Counterexample for C2 as stated: with records `{a:1,b:2}, {a:2,b:1}` and
sort keys `[a asc, b asc]`, the code returns the list ordered by the *last*
key `b` (`[{a:2,b:1}, {a:1,b:2}]`), not by the first key `a` as the claim's
pipeline (`specApplyQuery`, built from the spec's words) demands. -/
theorem claimC2_counterexample :
    findLoaded true [c2r1, c2r2] [] (some c2q) = [c2r2, c2r1] ∧
    specApplyQuery c2q [c2r1, c2r2] = [c2r1, c2r2] ∧
    findLoaded true [c2r1, c2r2] [] (some c2q) ≠
      specApplyQuery c2q [c2r1, c2r2] := by
  refine ⟨by decide, by decide, by decide⟩

/-- Witness for the amended C2 theorem at the counterexample's input. -/
theorem claimC2_amended_scan_pipeline_witness :
    findLoaded true [c2r1, c2r2] [] (some c2q) =
      amendedApplyQuery c2q [c2r1, c2r2] :=
  claimC2_amended_scan_pipeline true [c2r1, c2r2] [] c2q rfl (by decide)
    (by decide)

/-! ## The retry/backoff wrapper
(`GitHubStorageProvider.retryWithBackoff`, src/infrastructure/github-storage.ts,
lines 26-75) -/

/-- An error as octokit throws it: an optional numeric HTTP status and the
optional parsed `retry-after` header of its response (`none` = absent or
empty, i.e. falsy in JS). -/
structure JsErr where
  status : Option Nat
  retryAfter : Option Nat
deriving DecidableEq

/-- JS truthiness of `error?.status` (absent, `null` and `0` are falsy). -/
def statusTruthy : Option Nat → Bool
  | none => false
  | some s => s != 0

/-- The guard `status && status < 500 && status !== 429`. -/
def nonRetryableClient : Option Nat → Bool
  | none => false
  | some s => s != 0 && s < 500 && s != 429

/-- Outcome of the wrapper: the wrapped value, the last underlying error
rethrown unchanged, or a `RateLimitError` carrying the last `retry-after`
hint. -/
inductive RetryResult (α : Type) where
  | ok : α → RetryResult α
  | raw : JsErr → RetryResult α
  | rateLimited : Option Nat → RetryResult α
deriving DecidableEq

/-- `parseInt(retry-after) * 1000` when the failure is a 429 carrying the
hint, else `Math.min(baseDelay * 2^attempt, maxDelay)`. -/
def delayOf (e : JsErr) (attempt baseDelay maxDelay : Nat) : Nat :=
  if e.status = some 429 ∧ e.retryAfter ≠ none
  then (e.retryAfter.getD 0) * 1000
  else min (baseDelay * 2 ^ attempt) maxDelay

/-- The `for (attempt = 0; attempt <= maxRetries; attempt++)` loop of
`retryWithBackoff`. `f attempt` is the outcome of the `attempt`-th call of
the wrapped operation; `remaining = maxRetries - attempt` counts the loop
iterations left (the loop breaks into the exhaustion epilogue when
`attempt === maxRetries`). Returns the outcome, the list of waits performed
(in order), and the number of calls made. -/
def retryLoop (f : Nat → Except JsErr α) (baseDelay maxDelay : Nat) :
    Nat → Nat → RetryResult α × List Nat × Nat
  | attempt, remaining =>
    match f attempt with
    | .ok a => (.ok a, [], 1)
    | .error e =>
      if e.status = some 409 then (.raw e, [], 1)
      else if nonRetryableClient e.status then (.raw e, [], 1)
      else if statusTruthy e.status = false then (.raw e, [], 1)
      else
        match remaining with
        | 0 =>
          (if e.status = some 429 then .rateLimited e.retryAfter else .raw e,
           [], 1)
        | r + 1 =>
          let rest := retryLoop f baseDelay maxDelay (attempt + 1) r
          (rest.1, delayOf e attempt baseDelay maxDelay :: rest.2.1,
           rest.2.2 + 1)

/-- `retry?: RetryConfig | false` on the configuration. -/
inductive RetrySetting where
  | off
  | unset
  | conf : Option Nat → Option Nat → Option Nat → RetrySetting
deriving DecidableEq

/-- `retryWithBackoff`: disabled retry calls the operation once and rethrows
its error unchanged; otherwise the loop runs with per-field defaults
`maxRetries = 3`, `baseDelay = 1000`, `maxDelay = 10000`. -/
def retryWithBackoff (setting : RetrySetting) (f : Nat → Except JsErr α) :
    RetryResult α × List Nat × Nat :=
  match setting with
  | .off =>
    (match f 0 with
     | .ok a => .ok a
     | .error e => .raw e, [], 1)
  | .unset => retryLoop f 1000 10000 0 3
  | .conf mr bd md => retryLoop f (bd.getD 1000) (md.getD 10000) 0 (mr.getD 3)

theorem retryLoop_calls_pos (f : Nat → Except JsErr α) (b m a r : Nat) :
    1 ≤ (retryLoop f b m a r).2.2 := by
  unfold retryLoop
  cases f a with
  | ok v => simp
  | error e =>
    by_cases h1 : e.status = some 409
    · simp [h1]
    · by_cases h2 : nonRetryableClient e.status = true
      · simp [h1, h2]
      · by_cases h3 : statusTruthy e.status = false
        · simp [h1, h2, h3]
        · cases r <;> simp [h1, h2, h3]

theorem retryLoop_calls_le (f : Nat → Except JsErr α) (b m : Nat) :
    ∀ (r a : Nat), (retryLoop f b m a r).2.2 ≤ r + 1 := by
  intro r
  induction r with
  | zero =>
    intro a
    unfold retryLoop
    cases f a with
    | ok v => simp
    | error e =>
      by_cases h1 : e.status = some 409
      · simp [h1]
      · by_cases h2 : nonRetryableClient e.status = true
        · simp [h1, h2]
        · by_cases h3 : statusTruthy e.status = false
          · simp [h1, h2, h3]
          · simp [h1, h2, h3]
  | succ r ih =>
    intro a
    unfold retryLoop
    cases f a with
    | ok v => simp
    | error e =>
      by_cases h1 : e.status = some 409
      · simp [h1]
      · by_cases h2 : nonRetryableClient e.status = true
        · simp [h1, h2]
        · by_cases h3 : statusTruthy e.status = false
          · simp [h1, h2, h3]
          · have := ih (a + 1)
            simp [h1, h2, h3]
            omega

theorem retryLoop_error_zero (f : Nat → Except JsErr α) (b m a : Nat)
    (e : JsErr) (hf : f a = .error e) :
    retryLoop f b m a 0 =
      if e.status = some 409 then (.raw e, [], 1)
      else if nonRetryableClient e.status = true then (.raw e, [], 1)
      else if statusTruthy e.status = false then (.raw e, [], 1)
      else (if e.status = some 429 then .rateLimited e.retryAfter
            else .raw e, [], 1) := by
  unfold retryLoop
  rw [hf]

theorem retryLoop_error_succ (f : Nat → Except JsErr α) (b m a r : Nat)
    (e : JsErr) (hf : f a = .error e) :
    retryLoop f b m a (r + 1) =
      if e.status = some 409 then (.raw e, [], 1)
      else if nonRetryableClient e.status = true then (.raw e, [], 1)
      else if statusTruthy e.status = false then (.raw e, [], 1)
      else ((retryLoop f b m (a + 1) r).1,
        delayOf e a b m :: (retryLoop f b m (a + 1) r).2.1,
        (retryLoop f b m (a + 1) r).2.2 + 1) := by
  conv_lhs => rw [retryLoop]
  rw [hf]

theorem retryable_guards {e : JsErr} {s : Nat} (hs : e.status = some s)
    (hcl : 500 ≤ s ∨ s = 429) :
    ¬ (e.status = some 409) ∧ ¬ (nonRetryableClient e.status = true) ∧
    ¬ (statusTruthy e.status = false) := by
  refine ⟨?_, ?_, ?_⟩
  · rw [hs]; intro hc; injection hc with hc'; omega
  · rw [hs]; simp [nonRetryableClient]; omega
  · rw [hs]; simp [statusTruthy]; omega

theorem retryLoop_calls_exhaust (f : Nat → Except JsErr α) (b m : Nat) :
    ∀ (r a : Nat),
      (∀ k, a ≤ k → k ≤ a + r → ∃ e s, f k = .error e ∧ e.status = some s ∧
        (500 ≤ s ∨ s = 429)) →
      (retryLoop f b m a r).2.2 = r + 1 := by
  intro r
  induction r with
  | zero =>
    intro a hall
    obtain ⟨e, s, hf, hs, hcl⟩ := hall a (le_refl a) (by omega)
    obtain ⟨h1, h2, h3⟩ := retryable_guards hs hcl
    rw [retryLoop_error_zero f b m a e hf, if_neg h1, if_neg h2, if_neg h3]
  | succ r ih =>
    intro a hall
    obtain ⟨e, s, hf, hs, hcl⟩ := hall a (le_refl a) (by omega)
    obtain ⟨h1, h2, h3⟩ := retryable_guards hs hcl
    rw [retryLoop_error_succ f b m a r e hf, if_neg h1, if_neg h2, if_neg h3]
    have := ih (a + 1) (fun k hk1 hk2 => hall k (by omega) (by omega))
    show (retryLoop f b m (a + 1) r).2.2 + 1 = r + 1 + 1
    omega

/-- C3: the retry wrapper executes the wrapped operation exactly once when
the first failure carries the conflict status 409, any other status below
500 except 429, or no status at all; and it retries — issuing at least a
second call when budget remains, never more than `maxRetries + 1` calls in
total, and exactly `maxRetries + 1` calls when every attempt keeps failing —
exactly when the failure carries a 5xx status or the rate-limit status
429. -/
theorem claimC3_retry_classification {α : Type} (f : Nat → Except JsErr α)
    (base maxD maxRetries : Nat) :
    (∀ e, f 0 = .error e →
      (e.status = none ∨ ∃ s, e.status = some s ∧ s < 500 ∧ s ≠ 429) →
      retryLoop f base maxD 0 maxRetries = (.raw e, [], 1)) ∧
    (∀ e s, f 0 = .error e → e.status = some s → (500 ≤ s ∨ s = 429) →
      0 < maxRetries → 2 ≤ (retryLoop f base maxD 0 maxRetries).2.2) ∧
    ((retryLoop f base maxD 0 maxRetries).2.2 ≤ maxRetries + 1) ∧
    ((∀ k, k ≤ maxRetries → ∃ e s, f k = .error e ∧ e.status = some s ∧
        (500 ≤ s ∨ s = 429)) →
      (retryLoop f base maxD 0 maxRetries).2.2 = maxRetries + 1) := by
  refine ⟨?_, ?_, retryLoop_calls_le f base maxD maxRetries 0, ?_⟩
  · intro e hf hst
    have hguards : (e.status = some 409) ∨ (nonRetryableClient e.status = true)
        ∨ (statusTruthy e.status = false) := by
      rcases hst with hnone | ⟨s, hs, hlt, hne⟩
      · right; right; rw [hnone]; rfl
      · by_cases hz : s = 0
        · right; right; rw [hs, hz]; rfl
        · right; left; rw [hs]; simp [nonRetryableClient]; omega
    have key : ∀ X : RetryResult α × List Nat × Nat,
        (if e.status = some 409 then
          ((.raw e, [], 1) : RetryResult α × List Nat × Nat)
         else if nonRetryableClient e.status = true then (.raw e, [], 1)
         else if statusTruthy e.status = false then (.raw e, [], 1)
         else X) = (.raw e, [], 1) := by
      intro X
      split_ifs with h1 h2 h3
      · rfl
      · rfl
      · rfl
      · rcases hguards with h | h | h
        · exact absurd h h1
        · exact absurd h h2
        · exact absurd h h3
    cases maxRetries with
    | zero => rw [retryLoop_error_zero f base maxD 0 e hf]; exact key _
    | succ r => rw [retryLoop_error_succ f base maxD 0 r e hf]; exact key _
  · intro e s hf hs hcl hpos
    obtain ⟨r, rfl⟩ : ∃ r, maxRetries = r + 1 :=
      ⟨maxRetries - 1, by omega⟩
    obtain ⟨h1, h2, h3⟩ := retryable_guards hs hcl
    rw [retryLoop_error_succ f base maxD 0 r e hf, if_neg h1, if_neg h2,
      if_neg h3]
    have := retryLoop_calls_pos f base maxD (0 + 1) r
    show 2 ≤ (retryLoop f base maxD (0 + 1) r).2.2 + 1
    omega
  · intro hall
    exact retryLoop_calls_exhaust f base maxD maxRetries 0
      (fun k hk1 hk2 => hall k (by omega))

/-- Witness for C3: a 404 is surfaced after exactly one call; a persistent
500 is retried until all `maxRetries + 1 = 4` calls are spent. -/
theorem claimC3_retry_classification_witness :
    retryLoop (fun _ => (.error ⟨some 404, none⟩ : Except JsErr Unit))
      1000 10000 0 3 = (.raw ⟨some 404, none⟩, [], 1) ∧
    (retryLoop (fun _ => (.error ⟨some 500, none⟩ : Except JsErr Unit))
      1000 10000 0 3).2.2 = 4 := by
  constructor
  · exact (claimC3_retry_classification _ 1000 10000 3).1 _ rfl
      (Or.inr ⟨404, rfl, by omega, by omega⟩)
  · exact (claimC3_retry_classification _ 1000 10000 3).2.2.2
      (fun k _ => ⟨⟨some 500, none⟩, 500, rfl, rfl, Or.inl (by omega)⟩)

/-- C6: before retry number `attempt` the wrapper waits the suggested
`retry-after` duration converted to milliseconds when the failure is a 429
carrying that hint, and `min(baseDelay * 2^attempt, maxDelay)` otherwise;
when retries are exhausted the wrapper produces a `RateLimitError` carrying
the last failure's `retry-after` hint if the last failure was a 429, and
rethrows the last underlying failure unchanged otherwise. -/
theorem claimC6_delay_and_exhaustion {α : Type} (f : Nat → Except JsErr α)
    (base maxD : Nat) :
    (∀ attempt r e, f attempt = .error e →
      e.status ≠ some 409 → nonRetryableClient e.status = false →
      statusTruthy e.status = true →
      retryLoop f base maxD attempt (r + 1) =
        ((retryLoop f base maxD (attempt + 1) r).1,
         (if e.status = some 429 ∧ e.retryAfter ≠ none
          then (e.retryAfter.getD 0) * 1000
          else min (base * 2 ^ attempt) maxD) ::
           (retryLoop f base maxD (attempt + 1) r).2.1,
         (retryLoop f base maxD (attempt + 1) r).2.2 + 1)) ∧
    (∀ attempt e, f attempt = .error e → e.status = some 429 →
      retryLoop f base maxD attempt 0 = (.rateLimited e.retryAfter, [], 1)) ∧
    (∀ attempt e s, f attempt = .error e → e.status = some s → 500 ≤ s →
      retryLoop f base maxD attempt 0 = (.raw e, [], 1)) := by
  refine ⟨?_, ?_, ?_⟩
  · intro attempt r e hf h1 h2 h3
    rw [retryLoop_error_succ f base maxD attempt r e hf, if_neg h1,
      if_neg (by simp [h2]), if_neg (by simp [h3])]
    rfl
  · intro attempt e hf h429
    obtain ⟨h1, h2, h3⟩ := retryable_guards h429 (Or.inr rfl)
    rw [retryLoop_error_zero f base maxD attempt e hf, if_neg h1, if_neg h2,
      if_neg h3, if_pos h429]
  · intro attempt e s hf hs h5
    obtain ⟨h1, h2, h3⟩ := retryable_guards hs (Or.inl h5)
    rw [retryLoop_error_zero f base maxD attempt e hf, if_neg h1, if_neg h2,
      if_neg h3,
      if_neg (by rw [hs]; intro hc; injection hc with h'; omega)]

/-- Witness for C6: one 429 with hint 7s waits 7000ms before the retry; a
429 at the last attempt yields `RateLimitError 7`; a 500 at the last attempt
is rethrown unchanged. -/
theorem claimC6_delay_and_exhaustion_witness :
    retryLoop (fun _ => (.error ⟨some 429, some 7⟩ : Except JsErr Unit))
      1000 10000 0 1 =
      ((retryLoop (fun _ => (.error ⟨some 429, some 7⟩ : Except JsErr Unit))
          1000 10000 1 0).1,
        7000 :: (retryLoop (fun _ => (.error ⟨some 429, some 7⟩ : Except JsErr Unit))
          1000 10000 1 0).2.1,
        (retryLoop (fun _ => (.error ⟨some 429, some 7⟩ : Except JsErr Unit))
          1000 10000 1 0).2.2 + 1) ∧
    retryLoop (fun _ => (.error ⟨some 429, some 7⟩ : Except JsErr Unit))
      1000 10000 1 0 = (.rateLimited (some 7), [], 1) ∧
    retryLoop (fun _ => (.error ⟨some 503, none⟩ : Except JsErr Unit))
      1000 10000 1 0 = (.raw ⟨some 503, none⟩, [], 1) := by
  refine ⟨?_, ?_, ?_⟩
  · have h := (claimC6_delay_and_exhaustion
      (fun _ => (.error ⟨some 429, some 7⟩ : Except JsErr Unit)) 1000 10000).1
      0 0 ⟨some 429, some 7⟩ rfl (by decide) (by decide) (by decide)
    rw [h]
    rfl
  · exact (claimC6_delay_and_exhaustion _ 1000 10000).2.1 1 ⟨some 429, some 7⟩
      rfl rfl
  · exact (claimC6_delay_and_exhaustion _ 1000 10000).2.2 1 ⟨some 503, none⟩ 503
      rfl rfl (by omega)

/-! ## The storage provider and its two-tier cache
(src/infrastructure/github-storage.ts, src/infrastructure/cache-provider.ts)

Remote calls are modelled by passing the net outcome of each (retry-wrapped)
request as a parameter. Every operation returns its result, the updated
store state, and the number of remote requests it issued. -/

/-- The JSON payload a path holds: a plain value, a record list (a
single-blob collection), or one record (a sharded item blob). -/
inductive Payload where
  | val : Value → Payload
  | recs : List Rec → Payload
  | recOne : Rec → Payload
deriving DecidableEq

/-- `StorageResponse<T> = {data, sha}`. -/
structure StorageResponse where
  data : Payload
  sha : String
deriving DecidableEq

/-- Internal entry of `MemoryCacheProvider`: the cached response plus the
expiry instant (`none` = never expires). -/
structure CacheEntry where
  data : StorageResponse
  expiry : Option Nat
deriving DecidableEq

/-- The fresh tier (`MemoryCacheProvider`). -/
abbrev FreshCache := List (String × CacheEntry)

/-- The stale tier (`staleCache : Map<string, StorageResponse>`). -/
abbrev StaleCache := List (String × StorageResponse)

/-- `MemoryCacheProvider.get`: a present entry whose expiry instant lies
strictly in the past is deleted and reported as a miss. Returns the lookup
result together with the (possibly pruned) cache. -/
def cacheGet (m : FreshCache) (key : String) (now : Nat) :
    Option StorageResponse × FreshCache :=
  match jsMapGet m key with
  | none => (none, m)
  | some entry =>
    match entry.expiry with
    | some exp => if now > exp then (none, jsMapDelete m key) else (some entry.data, m)
    | none => (some entry.data, m)

/-- `MemoryCacheProvider.set`: `expiry = ttl ? Date.now() + ttl : null` — a
zero (or absent) ttl stores an entry that never expires. -/
def cacheSet (m : FreshCache) (key : String) (v : StorageResponse)
    (ttl : Nat) (now : Nat) : FreshCache :=
  jsMapSet m key ⟨v, if ttl ≠ 0 then some (now + ttl) else none⟩

/-- State owned by one `GitHubStorageProvider`: the two cache tiers and the
configured `cacheTTL` (the code's `DEFAULT_TTL` of 0 applies when absent). -/
structure StoreState where
  fresh : FreshCache
  stale : StaleCache
  cacheTTL : Option Nat
deriving DecidableEq

/-- Errors observable at the storage layer. -/
inductive DbError where
  | http : JsErr → DbError
  | rateLimit : Option Nat → DbError
  | concurrency : String → DbError
  | plain : String → DbError
deriving DecidableEq

/-- `error?.status` on a storage-layer error (`ConcurrencyError`,
`RateLimitError` and plain `Error`s carry none). -/
def DbError.status : DbError → Option Nat
  | http e => e.status
  | _ => none

/-- Outcome of a `getContent` call on a path: a file with payload and sha, a
directory listing, or a malformed body. -/
inductive ReadRemote where
  | file : Payload → String → ReadRemote
  | dir : ReadRemote
  | malformed : ReadRemote
deriving DecidableEq

/-- `GitHubStorageProvider.readJson`: fresh hit → no remote call; otherwise
the conditional request (with the stale entry's sha, when present) runs, a
304 re-arms the fresh tier from the stale entry, and fresh data is written
through both tiers. -/
def ghReadJson (st : StoreState) (now : Nat) (path : String)
    (remote : Except DbError ReadRemote) :
    Except DbError StorageResponse × StoreState × Nat :=
  match cacheGet st.fresh path now with
  | (some r, fresh') => (.ok r, { st with fresh := fresh' }, 0)
  | (none, fresh') =>
    match remote with
    | .ok (.file data sha) =>
      (.ok ⟨data, sha⟩,
       { st with
          fresh := cacheSet fresh' path ⟨data, sha⟩ (st.cacheTTL.getD 0) now,
          stale := jsMapSet st.stale path ⟨data, sha⟩ }, 1)
    | .ok .dir =>
      (.error (.plain "Path is a directory, not a file"),
       { st with fresh := fresh' }, 1)
    | .ok .malformed =>
      (.error (.plain "No content or SHA in response"),
       { st with fresh := fresh' }, 1)
    | .error e =>
      match e.status, jsMapGet st.stale path with
      | some 304, some s =>
        (.ok s,
         { st with fresh := cacheSet fresh' path s (st.cacheTTL.getD 0) now }, 1)
      | _, _ => (.error e, { st with fresh := fresh' }, 1)

/-- The write half of `GitHubStorageProvider.writeJson` (after sha
discovery): on success write-through both tiers with
`{data: content, sha: newSha}`; a 409 becomes `ConcurrencyError(path)`. -/
def ghWriteStep (st : StoreState) (now : Nat) (path : String)
    (content : Payload) (writeRemote : Except DbError (Option String))
    (calls : Nat) : Except DbError String × StoreState × Nat :=
  match writeRemote with
  | .ok shaOpt =>
    (.ok (shaOpt.getD ""),
     { st with
        fresh := cacheSet st.fresh path ⟨content, shaOpt.getD ""⟩
          (st.cacheTTL.getD 0) now,
        stale := jsMapSet st.stale path ⟨content, shaOpt.getD ""⟩ },
     calls + 1)
  | .error e =>
    if e.status = some 409 then (.error (.concurrency path), st, calls + 1)
    else (.error e, st, calls + 1)

/-- `GitHubStorageProvider.writeJson`: when no sha is supplied, look in the
fresh then stale tiers, then fall back to a remote lookup (404 meaning
"create"); then perform the write (`ghWriteStep`). -/
def ghWriteJson (st : StoreState) (now : Nat) (path : String)
    (content : Payload) (shaArg : Option String)
    (lookupRemote : Except DbError ReadRemote)
    (writeRemote : Except DbError (Option String)) :
    Except DbError String × StoreState × Nat :=
  match shaArg with
  | some _ => ghWriteStep st now path content writeRemote 0
  | none =>
    match cacheGet st.fresh path now with
    | (some _, fresh') =>
      ghWriteStep { st with fresh := fresh' } now path content writeRemote 0
    | (none, fresh') =>
      match jsMapGet st.stale path with
      | some _ =>
        ghWriteStep { st with fresh := fresh' } now path content writeRemote 0
      | none =>
        match lookupRemote with
        | .ok _ =>
          ghWriteStep { st with fresh := fresh' } now path content writeRemote 1
        | .error e =>
          if e.status = some 404 then
            ghWriteStep { st with fresh := fresh' } now path content writeRemote 1
          else (.error e, { st with fresh := fresh' }, 1)

/-- `GitHubStorageProvider.exists`: a fresh or stale hit answers `true` with
no remote call; a remote 404 answers `false`; other failures propagate. -/
def ghExists (st : StoreState) (now : Nat) (path : String)
    (remote : Except DbError Unit) :
    Except DbError Bool × StoreState × Nat :=
  match cacheGet st.fresh path now with
  | (some _, fresh') => (.ok true, { st with fresh := fresh' }, 0)
  | (none, fresh') =>
    if jsMapHas st.stale path then (.ok true, { st with fresh := fresh' }, 0)
    else
      match remote with
      | .ok _ => (.ok true, { st with fresh := fresh' }, 1)
      | .error e =>
        if e.status = some 404 then (.ok false, { st with fresh := fresh' }, 1)
        else (.error e, { st with fresh := fresh' }, 1)

/-- `GitHubStorageProvider.deleteFile`: on success evict the path from both
tiers; a failure — including a remote 409 — is rethrown unchanged (no
`ConcurrencyError` mapping, no eviction). -/
def ghDeleteFile (st : StoreState) (path : String)
    (remote : Except DbError Unit) :
    Except DbError Unit × StoreState × Nat :=
  match remote with
  | .ok _ =>
    (.ok (),
     { st with fresh := jsMapDelete st.fresh path,
               stale := jsMapDelete st.stale path }, 1)
  | .error e => (.error e, st, 1)

/-! ### The atomic batch commit (`GitHubStorageProvider.commit`) -/

/-- One element of the `changes` array (`content = null` marks removal,
modelled as `Payload.val Value.vnull`). -/
structure CommitChange where
  path : String
  content : Payload
deriving DecidableEq

/-- A tree entry of the `createTree` response (path may be absent; `sha` is
`null` for removals). -/
structure TreeEntry where
  path : Option String
  sha : Option String
deriving DecidableEq

/-- The five remote calls of the commit protocol: get-ref, get-commit,
create-tree (returning the new tree sha and its entries), create-commit,
update-ref. -/
structure CommitOracle where
  refRemote : Except DbError String
  commitRemote : Except DbError String
  createTreeRemote : Except DbError (String × List TreeEntry)
  createCommitRemote : Except DbError String
  updateRefRemote : Except DbError Unit

/-- The `catch` of `commit`: a 409 anywhere in the sequence becomes
`ConcurrencyError("batch-commit")`; everything else propagates. -/
def mapCommitErr (e : DbError) : DbError :=
  if e.status = some 409 then .concurrency "batch-commit" else e

/-- JS truthiness of `entry.path` / `entry.sha` (absent, `null` and the
empty string are falsy). -/
def optTruthy : Option String → Bool
  | none => false
  | some s => s ≠ ""

/-- Step 6 of `commit`: for every entry of the response tree with a truthy
path and sha that corresponds to one of the submitted changes, write
`{data: change.content, sha: entry.sha}` through both tiers. Entries
without a sha (removed paths) are skipped; nothing is ever evicted. -/
def commitCacheUpdate (now : Nat) (changes : List CommitChange)
    (entries : List TreeEntry) (st : StoreState) : StoreState :=
  entries.foldl
    (fun acc entry =>
      if optTruthy entry.path && optTruthy entry.sha then
        match changes.find? (fun c => c.path == entry.path.getD "") with
        | some change =>
          { acc with
              fresh := cacheSet acc.fresh (entry.path.getD "")
                ⟨change.content, entry.sha.getD ""⟩ (acc.cacheTTL.getD 0) now,
              stale := jsMapSet acc.stale (entry.path.getD "")
                ⟨change.content, entry.sha.getD ""⟩ }
        | none => acc
      else acc)
    st

/-- `GitHubStorageProvider.commit`: an empty change list is an error before
any remote call; otherwise the five-step sequence runs, any failure mapping
through `mapCommitErr`, and on success the cache write-through loop runs. -/
def ghCommit (st : StoreState) (now : Nat) (changes : List CommitChange)
    (oracle : CommitOracle) : Except DbError String × StoreState × Nat :=
  if changes.isEmpty then (.error (.plain "No changes to commit"), st, 0)
  else
    match oracle.refRemote with
    | .error e => (.error (mapCommitErr e), st, 1)
    | .ok _ =>
      match oracle.commitRemote with
      | .error e => (.error (mapCommitErr e), st, 2)
      | .ok _ =>
        match oracle.createTreeRemote with
        | .error e => (.error (mapCommitErr e), st, 3)
        | .ok (_, entries) =>
          match oracle.createCommitRemote with
          | .error e => (.error (mapCommitErr e), st, 4)
          | .ok newCommitSha =>
            match oracle.updateRefRemote with
            | .error e => (.error (mapCommitErr e), st, 5)
            | .ok _ =>
              (.ok newCommitSha, commitCacheUpdate now changes entries st, 5)

/-! ### Write-through lemmas (towards C5) -/

theorem cacheGet_of_get_none_expiry (m : FreshCache) (key : String)
    (now : Nat) (v : StorageResponse) (h : jsMapGet m key = some ⟨v, none⟩) :
    cacheGet m key now = (some v, m) := by
  unfold cacheGet
  rw [h]

theorem cacheGet_of_get_future (m : FreshCache) (key : String)
    (now exp : Nat) (v : StorageResponse)
    (h : jsMapGet m key = some ⟨v, some exp⟩) (hle : ¬ now > exp) :
    cacheGet m key now = (some v, m) := by
  unfold cacheGet
  rw [h]
  show (if now > exp then (none, jsMapDelete m key)
        else ((some v, m) : Option StorageResponse × FreshCache)) = (some v, m)
  rw [if_neg hle]

/-- A `get` at the very instant of a `set` always hits, whatever the ttl. -/
theorem cacheGet_cacheSet (m : FreshCache) (key : String)
    (v : StorageResponse) (ttl now : Nat) :
    cacheGet (cacheSet m key v ttl now) key now =
      (some v, cacheSet m key v ttl now) := by
  have hg : jsMapGet (cacheSet m key v ttl now) key =
      some ⟨v, if ttl ≠ 0 then some (now + ttl) else none⟩ := by
    unfold cacheSet
    rw [jsMapGet_jsMapSet, if_pos rfl]
  by_cases h : ttl = 0
  · refine cacheGet_of_get_none_expiry _ _ _ _ ?_
    rw [hg, if_neg (not_not_intro h)]
  · refine cacheGet_of_get_future _ _ _ (now + ttl) _ ?_ (by omega)
    rw [hg, if_pos h]

theorem ghReadJson_fresh_hit (st : StoreState) (now : Nat) (path : String)
    (r : StorageResponse) (anyRemote : Except DbError ReadRemote)
    (h : cacheGet st.fresh path now = (some r, st.fresh)) :
    ghReadJson st now path anyRemote = (.ok r, st, 0) := by
  unfold ghReadJson
  rw [h]

theorem ghWriteStep_ok_read (st : StoreState) (now : Nat) (path : String)
    (content : Payload) (writeRemote : Except DbError (Option String))
    (calls : Nat) (s : String) (anyRemote : Except DbError ReadRemote)
    (hw : (ghWriteStep st now path content writeRemote calls).1 = .ok s) :
    jsMapGet ((ghWriteStep st now path content writeRemote calls).2.1).stale
      path = some ⟨content, s⟩ ∧
    ghReadJson ((ghWriteStep st now path content writeRemote calls).2.1)
        now path anyRemote =
      (.ok ⟨content, s⟩,
       (ghWriteStep st now path content writeRemote calls).2.1, 0) := by
  cases writeRemote with
  | error e =>
    exfalso
    have hw2 : (if e.status = some 409
        then ((.error (.concurrency path), st, calls + 1) :
          Except DbError String × StoreState × Nat)
        else (.error e, st, calls + 1)).1 = .ok s := hw
    by_cases h9 : e.status = some 409
    · rw [if_pos h9] at hw2
      exact Except.noConfusion hw2
    · rw [if_neg h9] at hw2
      exact Except.noConfusion hw2
  | ok shaOpt =>
    have hw2 : (Except.ok (shaOpt.getD "") : Except DbError String) = .ok s := hw
    injection hw2 with hs
    subst hs
    constructor
    · show jsMapGet (jsMapSet st.stale path ⟨content, shaOpt.getD ""⟩) path = _
      rw [jsMapGet_jsMapSet, if_pos rfl]
    · apply ghReadJson_fresh_hit
      show cacheGet
          (cacheSet st.fresh path ⟨content, shaOpt.getD ""⟩
            (st.cacheTTL.getD 0) now) path now =
        (some ⟨content, shaOpt.getD ""⟩,
         cacheSet st.fresh path ⟨content, shaOpt.getD ""⟩
           (st.cacheTTL.getD 0) now)
      exact cacheGet_cacheSet _ _ _ _ _

/-- Every successful `writeJson` run is, up to its sha-discovery prelude, a
`ghWriteStep` on some intermediate state. -/
theorem ghWriteJson_reduces (st : StoreState) (now : Nat) (path : String)
    (content : Payload) (shaArg : Option String)
    (lookupRemote : Except DbError ReadRemote)
    (writeRemote : Except DbError (Option String)) (s : String)
    (hw : (ghWriteJson st now path content shaArg lookupRemote
      writeRemote).1 = .ok s) :
    ∃ st₀ calls,
      ghWriteJson st now path content shaArg lookupRemote writeRemote =
        ghWriteStep st₀ now path content writeRemote calls := by
  cases shaArg with
  | some a => exact ⟨st, 0, rfl⟩
  | none =>
    rcases hcg : cacheGet st.fresh path now with ⟨o, fresh'⟩
    cases o with
    | some r =>
      refine ⟨{ st with fresh := fresh' }, 0, ?_⟩
      unfold ghWriteJson
      rw [hcg]
    | none =>
      cases hst : jsMapGet st.stale path with
      | some v =>
        refine ⟨{ st with fresh := fresh' }, 0, ?_⟩
        unfold ghWriteJson
        rw [hcg, hst]
      | none =>
        cases lookupRemote with
        | ok rr =>
          refine ⟨{ st with fresh := fresh' }, 1, ?_⟩
          unfold ghWriteJson
          rw [hcg, hst]
        | error e =>
          by_cases h404 : e.status = some 404
          · refine ⟨{ st with fresh := fresh' }, 1, ?_⟩
            have hred : ghWriteJson st now path content none
                (.error e) writeRemote =
                (if e.status = some 404
                 then ghWriteStep { st with fresh := fresh' } now path
                   content writeRemote 1
                 else (.error e, { st with fresh := fresh' }, 1)) := by
              unfold ghWriteJson
              rw [hcg, hst]
            rw [hred, if_pos h404]
          · exfalso
            have hred : ghWriteJson st now path content none
                (.error e) writeRemote =
                (if e.status = some 404
                 then ghWriteStep { st with fresh := fresh' } now path
                   content writeRemote 1
                 else (.error e, { st with fresh := fresh' }, 1)) := by
              unfold ghWriteJson
              rw [hcg, hst]
            rw [hred, if_neg h404] at hw
            exact Except.noConfusion hw

/-- C5: whenever `writeJson` succeeds with sha `s`, the pair
`{data: content, sha: s}` sits in the stale tier, and a `readJson` of the
same path issued at the same instant is answered from the fresh tier with
exactly the just-written value and **zero** remote calls — whatever outcome
a remote read would have had. -/
theorem claimC5_write_through_read (st : StoreState) (now : Nat)
    (path : String) (content : Payload) (shaArg : Option String)
    (lookupRemote : Except DbError ReadRemote)
    (writeRemote : Except DbError (Option String)) (s : String)
    (anyRemote : Except DbError ReadRemote)
    (hw : (ghWriteJson st now path content shaArg lookupRemote
      writeRemote).1 = .ok s) :
    jsMapGet ((ghWriteJson st now path content shaArg lookupRemote
      writeRemote).2.1).stale path = some ⟨content, s⟩ ∧
    ghReadJson ((ghWriteJson st now path content shaArg lookupRemote
        writeRemote).2.1) now path anyRemote =
      (.ok ⟨content, s⟩,
       (ghWriteJson st now path content shaArg lookupRemote
         writeRemote).2.1, 0) := by
  obtain ⟨st₀, calls, heq⟩ :=
    ghWriteJson_reduces st now path content shaArg lookupRemote writeRemote
      s hw
  rw [heq] at hw ⊢
  exact ghWriteStep_ok_read st₀ now path content writeRemote calls s
    anyRemote hw

/-- Witness for C5: a fresh-state create of `"users.json"` whose remote
write returns sha `"n1"`. -/
theorem claimC5_write_through_read_witness :
    ((ghWriteJson ⟨[], [], none⟩ 7 "users.json" (.val (.vstr "d")) none
        (.error (.http ⟨some 404, none⟩)) (.ok (some "n1"))).1 =
      (.ok "n1" : Except DbError String)) ∧
    jsMapGet ((ghWriteJson ⟨[], [], none⟩ 7 "users.json" (.val (.vstr "d"))
      none (.error (.http ⟨some 404, none⟩))
      (.ok (some "n1"))).2.1).stale "users.json" =
        some ⟨.val (.vstr "d"), "n1"⟩ ∧
    ghReadJson ((ghWriteJson ⟨[], [], none⟩ 7 "users.json"
        (.val (.vstr "d")) none (.error (.http ⟨some 404, none⟩))
        (.ok (some "n1"))).2.1) 7 "users.json"
        (.error (.plain "remote never consulted")) =
      (.ok ⟨.val (.vstr "d"), "n1"⟩,
       (ghWriteJson ⟨[], [], none⟩ 7 "users.json" (.val (.vstr "d")) none
         (.error (.http ⟨some 404, none⟩)) (.ok (some "n1"))).2.1, 0) := by
  refine ⟨rfl, ?_, ?_⟩
  · exact (claimC5_write_through_read ⟨[], [], none⟩ 7 "users.json"
      (.val (.vstr "d")) none (.error (.http ⟨some 404, none⟩))
      (.ok (some "n1")) "n1" (.error (.plain "remote never consulted"))
      rfl).1
  · exact (claimC5_write_through_read ⟨[], [], none⟩ 7 "users.json"
      (.val (.vstr "d")) none (.error (.http ⟨some 404, none⟩))
      (.ok (some "n1")) "n1" (.error (.plain "remote never consulted"))
      rfl).2

/-! ### C10: the post-commit write-through never evicts -/

/-- The write-through loop of `commit` leaves every path untouched that no
truthy (path, sha) tree entry names — in particular every removed path,
whose entry carries `sha: null`. -/
theorem commitCacheUpdate_skip (now : Nat) (changes : List CommitChange)
    (p : String) :
    ∀ (entries : List TreeEntry) (st : StoreState),
      (∀ e ∈ entries,
        (optTruthy e.path && optTruthy e.sha) = true → e.path ≠ some p) →
      jsMapGet (commitCacheUpdate now changes entries st).fresh p =
        jsMapGet st.fresh p ∧
      jsMapGet (commitCacheUpdate now changes entries st).stale p =
        jsMapGet st.stale p := by
  intro entries
  induction entries with
  | nil => intro st _; exact ⟨rfl, rfl⟩
  | cons e rest ih =>
    intro st hskip
    have hrest : ∀ e' ∈ rest,
        (optTruthy e'.path && optTruthy e'.sha) = true → e'.path ≠ some p :=
      fun e' he' => hskip e' (List.mem_cons_of_mem _ he')
    have hstep : commitCacheUpdate now changes (e :: rest) st =
        commitCacheUpdate now changes rest
          (if optTruthy e.path && optTruthy e.sha then
            match changes.find? (fun c => c.path == e.path.getD "") with
            | some change =>
              { st with
                  fresh := cacheSet st.fresh (e.path.getD "")
                    ⟨change.content, e.sha.getD ""⟩ (st.cacheTTL.getD 0) now,
                  stale := jsMapSet st.stale (e.path.getD "")
                    ⟨change.content, e.sha.getD ""⟩ }
            | none => st
           else st) := rfl
    by_cases htr : (optTruthy e.path && optTruthy e.sha) = true
    · have hne : e.path ≠ some p := hskip e (List.mem_cons_self e rest) htr
      have hpne : ¬ p = e.path.getD "" := by
        intro hp
        rcases he : e.path with _ | q
        · rw [he] at htr
          exact absurd htr (by simp [optTruthy])
        · exact hne (by rw [he, Option.getD_some] at hp; rw [he, ← hp])
      rw [hstep, if_pos htr]
      cases hfind : changes.find? (fun c => c.path == e.path.getD "") with
      | none => exact ih st hrest
      | some change =>
        have hmid := ih ({ st with
            fresh := cacheSet st.fresh (e.path.getD "")
              ⟨change.content, e.sha.getD ""⟩ (st.cacheTTL.getD 0) now,
            stale := jsMapSet st.stale (e.path.getD "")
              ⟨change.content, e.sha.getD ""⟩ }) hrest
        have hf : jsMapGet (cacheSet st.fresh (e.path.getD "")
            ⟨change.content, e.sha.getD ""⟩ (st.cacheTTL.getD 0) now) p =
            jsMapGet st.fresh p := by
          unfold cacheSet
          rw [jsMapGet_jsMapSet, if_neg hpne]
        have hs2 : jsMapGet (jsMapSet st.stale (e.path.getD "")
            ⟨change.content, e.sha.getD ""⟩) p = jsMapGet st.stale p := by
          rw [jsMapGet_jsMapSet, if_neg hpne]
        exact ⟨hmid.1.trans hf, hmid.2.trans hs2⟩
    · rw [hstep, if_neg htr]
      exact ih st hrest

/-- C10: after a successful batch commit whose response tree carries no
truthy (path, sha) entry for `p` — the shape every removal produces, since
removed paths come back with `sha: null` — both cache tiers still hold
their pre-commit entries for `p`; if `p` sat in the stale tier before the
commit, a subsequent `exists p` is still answered `true` from cache with
zero remote calls. `deleteFile`, by contrast, evicts `p` from both tiers on
success. -/
theorem claimC10_commit_keeps_removed_paths_cached (st : StoreState)
    (now : Nat) (changes : List CommitChange) (oracle : CommitOracle)
    (p : String) (entries : List TreeEntry)
    (treeSha commitSha headSha baseSha : String)
    (h1 : oracle.refRemote = .ok headSha)
    (h2 : oracle.commitRemote = .ok baseSha)
    (h3 : oracle.createTreeRemote = .ok (treeSha, entries))
    (h4 : oracle.createCommitRemote = .ok commitSha)
    (h5 : oracle.updateRefRemote = .ok ())
    (hne : changes ≠ [])
    (hskip : ∀ e ∈ entries,
      (optTruthy e.path && optTruthy e.sha) = true → e.path ≠ some p) :
    jsMapGet ((ghCommit st now changes oracle).2.1).fresh p =
      jsMapGet st.fresh p ∧
    jsMapGet ((ghCommit st now changes oracle).2.1).stale p =
      jsMapGet st.stale p ∧
    (jsMapHas st.stale p = true →
      ∀ (now2 : Nat) (anyRemote : Except DbError Unit),
        (ghExists ((ghCommit st now changes oracle).2.1) now2 p
          anyRemote).1 = .ok true ∧
        (ghExists ((ghCommit st now changes oracle).2.1) now2 p
          anyRemote).2.2 = 0) ∧
    (∀ (sst : StoreState),
      jsMapGet ((ghDeleteFile sst p (.ok ())).2.1).fresh p = none ∧
      jsMapGet ((ghDeleteFile sst p (.ok ())).2.1).stale p = none) := by
  have hcommit : ghCommit st now changes oracle =
      (.ok commitSha, commitCacheUpdate now changes entries st, 5) := by
    unfold ghCommit
    rw [if_neg (by simpa using hne), h1, h2, h3, h4, h5]
  have hkeep := commitCacheUpdate_skip now changes p entries st hskip
  rw [hcommit]
  refine ⟨hkeep.1, hkeep.2, ?_, ?_⟩
  · intro hhas now2 anyRemote
    have hhas2 : jsMapHas (commitCacheUpdate now changes entries st).stale
        p = true := by
      unfold jsMapHas at hhas ⊢
      rw [hkeep.2]
      exact hhas
    rcases hcg : cacheGet (commitCacheUpdate now changes entries st).fresh
        p now2 with ⟨o, fresh'⟩
    cases o with
    | some r =>
      constructor
      · show (ghExists (commitCacheUpdate now changes entries st) now2 p
          anyRemote).1 = .ok true
        unfold ghExists
        rw [hcg]
      · show (ghExists (commitCacheUpdate now changes entries st) now2 p
          anyRemote).2.2 = 0
        unfold ghExists
        rw [hcg]
    | none =>
      constructor
      · show (ghExists (commitCacheUpdate now changes entries st) now2 p
          anyRemote).1 = .ok true
        unfold ghExists
        rw [hcg]
        simp [hhas2]
      · show (ghExists (commitCacheUpdate now changes entries st) now2 p
          anyRemote).2.2 = 0
        unfold ghExists
        rw [hcg]
        simp [hhas2]
  · intro sst
    constructor
    · show jsMapGet (jsMapDelete sst.fresh p) p = none
      rw [jsMapGet_jsMapDelete, if_pos rfl]
    · show jsMapGet (jsMapDelete sst.stale p) p = none
      rw [jsMapGet_jsMapDelete, if_pos rfl]

/-- Entries for the C10 witness: one commit removing `"users/1.json"` while
updating `"users/2.json"`; the response tree reports the removed path with
a null sha. -/
def w10store : StoreState :=
  ⟨[("users/1.json", ⟨⟨.val (.vstr "old"), "s1"⟩, none⟩)],
   [("users/1.json", ⟨.val (.vstr "old"), "s1"⟩)], none⟩

def w10changes : List CommitChange :=
  [⟨"users/1.json", .val .vnull⟩, ⟨"users/2.json", .val (.vstr "new")⟩]

def w10oracle : CommitOracle :=
  ⟨.ok "head", .ok "base",
   .ok ("tree", [⟨some "users/1.json", none⟩, ⟨some "users/2.json", some "s2"⟩]),
   .ok "c1", .ok ()⟩

/-- Witness for C10 at a concrete removed path. -/
theorem claimC10_commit_keeps_removed_paths_cached_witness :
    jsMapGet ((ghCommit w10store 3 w10changes w10oracle).2.1).stale
      "users/1.json" = some ⟨.val (.vstr "old"), "s1"⟩ ∧
    (ghExists ((ghCommit w10store 3 w10changes w10oracle).2.1) 9
      "users/1.json" (.error (.plain "remote never consulted"))).1 =
        .ok true ∧
    jsMapGet ((ghDeleteFile w10store "users/1.json" (.ok ())).2.1).stale
      "users/1.json" = none := by
  have h := claimC10_commit_keeps_removed_paths_cached w10store 3 w10changes
    w10oracle "users/1.json"
    [⟨some "users/1.json", none⟩, ⟨some "users/2.json", some "s2"⟩]
    "tree" "c1" "head" "base" rfl rfl rfl rfl rfl
    (by simp [w10changes]) (by decide)
  refine ⟨?_, (h.2.2.1 (by decide) 9 (.error (.plain "remote never consulted"))).1,
    (h.2.2.2 w10store).2⟩
  rw [h.2.1]
  decide

/-! ### The transaction buffer
(src/infrastructure/transaction-storage.ts, src/ui/transaction.ts) -/

/-- The pending map of one transaction (`Map<string, any>`, path →
content-or-tombstone; a tombstone is JS `null`). -/
abbrev PendingMap := List (String × Payload)

/-- `TransactionStorageProvider.writeJson`: stash, return the sentinel. -/
def txWriteJson (pending : PendingMap) (path : String) (content : Payload) :
    PendingMap × String :=
  (jsMapSet pending path content, "transaction-pending-sha")

/-- `TransactionStorageProvider.deleteFile`: stash a `null` tombstone. -/
def txDeleteFile (pending : PendingMap) (path : String) : PendingMap :=
  jsMapSet pending path (.val .vnull)

/-- `TransactionStorageProvider.exists`: pending paths exist; otherwise
delegate (the delegate's outcome is the `base` parameter). -/
def txExists (pending : PendingMap) (path : String)
    (base : Except DbError Bool) : Except DbError Bool :=
  if jsMapHas pending path then .ok true else base

/-- `TransactionStorageProvider.readJson`: a pending entry (tombstones
included — only `undefined` means absent) is served with the sentinel sha;
otherwise delegate. -/
def txReadJson (pending : PendingMap) (path : String)
    (base : Except DbError StorageResponse) : Except DbError StorageResponse :=
  match jsMapGet pending path with
  | some v => .ok ⟨v, "transaction-pending-sha"⟩
  | none => base

/-- `TransactionStorageProvider.getChanges`: the pending map as an ordered
change list. -/
def txGetChanges (pending : PendingMap) : List CommitChange :=
  pending.map (fun e => ⟨e.1, e.2⟩)

/-- `Transaction.commit`: zero pending changes yield `""` with no remote
call; otherwise the batch goes to the storage engine's `commit`. -/
def transactionCommit (pending : PendingMap) (sst : StoreState) (now : Nat)
    (oracle : CommitOracle) : Except DbError String × StoreState × Nat :=
  if (txGetChanges pending).length = 0 then (.ok "", sst, 0)
  else ghCommit sst now (txGetChanges pending) oracle

/-! ## `Collection.delete` (src/ui/collection.ts) -/

/-- `StorageStrategy`. -/
inductive Strategy where
  | singleFile
  | sharded
deriving DecidableEq

/-- The mutable state of one `Collection` instance that `delete` touches:
`dataLoaded`, `items`, `lastSha`, the sharded `shas` map and the indexer. -/
structure CollState where
  name : String
  strategy : Strategy
  dataLoaded : Bool
  items : List Rec
  lastSha : Option String
  shas : List (String × String)
  indexes : Indexer.Indexes
deriving DecidableEq

/-- `get path()`: `name/` for sharded, `name.json` for single-file. -/
def collPath (c : CollState) : String :=
  if c.strategy = .sharded then c.name ++ "/" else c.name ++ ".json"

/-- `getItemPath(id)`. -/
def getItemPath (c : CollState) (id : String) : String :=
  if c.strategy = .sharded then c.name ++ "/" ++ id ++ ".json"
  else c.name ++ ".json"

/-- The `findIndex` predicate `(item: any) => item.id === id`. -/
def idMatches (id : String) (r : Rec) : Bool :=
  r.get "id" == Value.vstr id

/-- The common epilogue of `delete`: `if (this.dataLoaded) { this.items =
filtered; this.indexer.remove(itemToDelete); }`. -/
def deleteEpilogue (c : CollState) (filtered : List Rec)
    (itemToDelete : Rec) : CollState :=
  if c.dataLoaded then
    { c with items := filtered,
             indexes := Indexer.remove c.indexes itemToDelete }
  else c

/-- `Collection.delete(id)` for an instance in the loaded state, where the
opening `find()` answers `exists(this.path)` and then returns `this.items`.
Remote outcomes are oracle parameters; the returned triple is (result,
collection state, store state). Two deliberate asymmetries of the source
are preserved: the sharded branch has **no** `try`/`catch`, so any failure
of `readJson`/`deleteFile` — including a raw 409, which
`GitHubStorageProvider.deleteFile` never maps to `ConcurrencyError` —
propagates with `dataLoaded` and the sha map untouched, whereas the
single-file branch catches a `ConcurrencyError` from `writeJson`, resets
`dataLoaded := false`, and rethrows. The source's `if (!sha)` test is JS
truthiness on the `shas.get` result (`optTruthy`), with the two branches
written in the opposite order here. -/
def collectionDelete (c : CollState) (sst : StoreState) (now : Nat)
    (id : String)
    (existsRemote : Except DbError Unit)
    (readRemote : Except DbError ReadRemote)
    (lookupRemote : Except DbError ReadRemote)
    (writeRemote : Except DbError (Option String))
    (deleteRemote : Except DbError Unit) :
    Except DbError Unit × CollState × StoreState :=
  match ghExists sst now (collPath c) existsRemote with
  | (.error e, sst1, _) => (.error e, c, sst1)
  | (.ok false, sst1, _) => (.ok (), c, sst1)
  | (.ok true, sst1, _) =>
    match c.items.findIdx? (idMatches id) with
    | none => (.ok (), c, sst1)
    | some index =>
      if c.strategy = .sharded then
        if optTruthy (jsMapGet c.shas (getItemPath c id)) then
          match ghDeleteFile sst1 (getItemPath c id) deleteRemote with
          | (.error e, sst2, _) => (.error e, c, sst2)
          | (.ok _, sst2, _) =>
            (.ok (),
             deleteEpilogue
               { c with shas := jsMapDelete c.shas (getItemPath c id) }
               (c.items.eraseIdx index) (c.items.getD index ⟨0, []⟩),
             sst2)
        else
          match ghReadJson sst1 now (getItemPath c id) readRemote with
          | (.error e, sst2, _) => (.error e, c, sst2)
          | (.ok _, sst2, _) =>
            match ghDeleteFile sst2 (getItemPath c id) deleteRemote with
            | (.error e, sst3, _) => (.error e, c, sst3)
            | (.ok _, sst3, _) =>
              (.ok (),
               deleteEpilogue
                 { c with shas := jsMapDelete c.shas (getItemPath c id) }
                 (c.items.eraseIdx index) (c.items.getD index ⟨0, []⟩),
               sst3)
      else
        match ghWriteJson sst1 now (collPath c)
            (.recs (c.items.eraseIdx index)) c.lastSha lookupRemote
            writeRemote with
        | (.error e, sst2, _) =>
          match e with
          | .concurrency m =>
            (.error (.concurrency m), { c with dataLoaded := false }, sst2)
          | _ => (.error e, c, sst2)
        | (.ok newSha, sst2, _) =>
          (.ok (),
           deleteEpilogue { c with lastSha := some newSha }
             (c.items.eraseIdx index) (c.items.getD index ⟨0, []⟩),
           sst2)

/-- A loaded one-record collection in each layout, over a store whose stale
tier already knows both collection paths. -/
def c1item : Rec := ⟨1, [("id", .vstr "1"), ("name", .vstr "Alice")]⟩

def c1sharded : CollState :=
  ⟨"users", .sharded, true, [c1item], none, [("users/1.json", "s1")], []⟩

def c1single : CollState :=
  ⟨"users", .singleFile, true, [c1item], some "s0", [], []⟩

def c1store : StoreState :=
  ⟨[], [("users/", ⟨.val .vnull, "d0"⟩),
        ("users.json", ⟨.recs [c1item], "s0"⟩)], none⟩

/-- C1 (code bug): when the version-checked remote delete of a
sharded-layout `delete` is rejected with status 409, the raw HTTP error —
not a `ConcurrencyError` — surfaces, and the collection instance is left
completely untouched, still loaded: `deleteFile` lacks the 409 mapping that
`writeJson` and `commit` have, and the sharded branch of
`Collection.delete` has no `catch`. The single-file branch of the very same
operation behaves as the spec says: a 409 surfaces as
`ConcurrencyError` and forces `dataLoaded := false`. -/
theorem claimC1_sharded_delete_conflict_not_unloaded :
    (collectionDelete c1sharded c1store 0 "1" (.ok ())
      (.error (.plain "unused")) (.error (.plain "unused"))
      (.error (.plain "unused")) (.error (.http ⟨some 409, none⟩))).1 =
      .error (.http ⟨some 409, none⟩) ∧
    (collectionDelete c1sharded c1store 0 "1" (.ok ())
      (.error (.plain "unused")) (.error (.plain "unused"))
      (.error (.plain "unused")) (.error (.http ⟨some 409, none⟩))).2.1 =
      c1sharded ∧
    ((collectionDelete c1sharded c1store 0 "1" (.ok ())
      (.error (.plain "unused")) (.error (.plain "unused"))
      (.error (.plain "unused"))
      (.error (.http ⟨some 409, none⟩))).2.1).dataLoaded = true ∧
    (collectionDelete c1single c1store 0 "1" (.ok ())
      (.error (.plain "unused")) (.error (.plain "unused"))
      (.error (.http ⟨some 409, none⟩)) (.error (.plain "unused"))).1 =
      .error (.concurrency "users.json") ∧
    ((collectionDelete c1single c1store 0 "1" (.ok ())
      (.error (.plain "unused")) (.error (.plain "unused"))
      (.error (.http ⟨some 409, none⟩))
      (.error (.plain "unused"))).2.1).dataLoaded = false := by
  refine ⟨rfl, rfl, rfl, rfl, rfl⟩

/-! ### C4, C8, C9 -/

/-- C4 (code bug): with the default `cacheTTL` of 0, `MemoryCacheProvider.set`
stores `expiry = null` (`ttl ? Date.now() + ttl : null`), so the entry
*never* expires: a `get` arbitrarily far in the future still hits, and
`readJson` is answered from the fresh tier with **zero** remote requests —
the remote outcome parameter is an error precisely to show it is never
consulted. This contradicts the claim (and the code's own
`cache-consistency` test) that a zero ttl makes every read revalidate. -/
theorem claimC4_ttl_zero_entry_never_expires :
    (cacheGet (cacheSet [] "users.json" ⟨.val (.vstr "v"), "sha1"⟩ 0 0)
      "users.json" 999999999).1 = some ⟨.val (.vstr "v"), "sha1"⟩ ∧
    ghReadJson
        ⟨cacheSet [] "users.json" ⟨.val (.vstr "v"), "sha1"⟩ 0 0, [], none⟩
        999999999 "users.json" (.error (.plain "remote never consulted")) =
      (.ok ⟨.val (.vstr "v"), "sha1"⟩,
       ⟨cacheSet [] "users.json" ⟨.val (.vstr "v"), "sha1"⟩ 0 0, [], none⟩,
       0) := by
  exact ⟨rfl, rfl⟩

/-- C8: the storage engine's `commit` rejects an empty change list before
issuing any remote request, while committing a transaction with an empty
pending set is a no-op: no remote request and the empty-string result. -/
theorem claimC8_empty_commit (st : StoreState) (now : Nat)
    (oracle : CommitOracle) :
    ghCommit st now [] oracle = (.error (.plain "No changes to commit"), st, 0) ∧
    transactionCommit [] st now oracle = (.ok "", st, 0) :=
  ⟨rfl, rfl⟩

theorem jsMapGet_mem [DecidableEq κ] {m : List (κ × β)} {k : κ} {v : β}
    (h : jsMapGet m k = some v) : (k, v) ∈ m := by
  induction m with
  | nil => exact absurd h (by simp [jsMapGet])
  | cons e rest ih =>
    obtain ⟨k', v'⟩ := e
    unfold jsMapGet at h
    by_cases hk : k' = k
    · subst hk
      rw [if_pos (by simp)] at h
      injection h with h'
      subst h'
      simp
    · rw [if_neg (by simp [hk])] at h
      exact List.mem_cons_of_mem _ (ih h)

/-- C9: after `deleteFile(path)` stashes a tombstone, `exists(path)` is true
and `readJson(path)` returns `{data: null, sha: "transaction-pending-sha"}`
without consulting the base storage, for every prior pending state; and
`getChanges` materializes the tombstone as `{path, content: null}`. -/
theorem claimC9_tombstone_visibility (pending : PendingMap) (path : String)
    (base : Except DbError Bool) (baseRead : Except DbError StorageResponse) :
    txExists (txDeleteFile pending path) path base = .ok true ∧
    txReadJson (txDeleteFile pending path) path baseRead =
      .ok ⟨.val .vnull, "transaction-pending-sha"⟩ ∧
    (⟨path, Payload.val Value.vnull⟩ : CommitChange) ∈
      txGetChanges (txDeleteFile pending path) := by
  have hget : jsMapGet (txDeleteFile pending path) path =
      some (.val .vnull) := by
    unfold txDeleteFile
    rw [jsMapGet_jsMapSet, if_pos rfl]
  refine ⟨?_, ?_, ?_⟩
  · unfold txExists jsMapHas
    rw [hget]
    rfl
  · unfold txReadJson
    rw [hget]
  · unfold txGetChanges
    exact List.mem_map.mpr ⟨(path, .val .vnull), jsMapGet_mem hget, rfl⟩

end GhDb

